import Mathlib

/-!
Verification of the token-stream transformation engine of the caval-corpus
pipeline.  Each stage of the pipeline is embedded shallowly: token records
become Lean structures, the per-sentence transformation loops become
structurally recursive functions, Python dictionaries become association
lists with first-match lookup and replace-or-append insertion, and
Python `str(n)` / `int(s)` become `decStr` / `natOfStr` below.
-/

namespace Caval

/-! ### Decimal strings: model of Python `str(n)` and `int(s)` -/

/-- Character for a single decimal digit (`0 ≤ n ≤ 9`). -/
def decChar (n : Nat) : Char := Char.ofNat (48 + n)

/-- Fueled decimal digit expansion, most significant digit first. -/
def decDigitsAux : Nat → Nat → List Char
  | 0, _ => []
  | f+1, n => if n < 10 then [decChar n] else decDigitsAux f (n / 10) ++ [decChar (n % 10)]

/-- Decimal representation of `n`, as produced by Python `str(n)`. -/
def decStr (n : Nat) : String := String.mk (decDigitsAux (n+1) n)

/-- Numeric value of a digit string, as computed by Python `int(s)` on an
all-digit string. -/
def natOfStr (s : String) : Nat := s.toList.foldl (fun a c => a * 10 + (c.toNat - 48)) 0

/-- Model of Python `str.isdigit` restricted to ASCII digits (the only
digits occurring in the corpus ids). -/
def isDigits (s : String) : Bool := !s.isEmpty && s.toList.all Char.isDigit

/-! ### Association lists: model of Python `dict` -/

/-- First-match lookup, the semantics of `d.get(k)` for a dict built by the
insertion functions below (keys are kept unique). -/
def lookupStr : List (String × String) → String → Option String
  | [], _ => none
  | (k, v) :: m, s => if k = s then some v else lookupStr m s

/-- Dict assignment `d[k] = v`: replace the value of an existing key,
otherwise append the new binding. -/
def insertStr : List (String × String) → String → String → List (String × String)
  | [], k, v => [(k, v)]
  | (k0, v0) :: m, k, v => if k0 = k then (k0, v) :: m else (k0, v0) :: insertStr m k v

/-- First-match lookup for `Nat`-keyed dicts. -/
def lookupNat : List (Nat × Nat) → Nat → Option Nat
  | [], _ => none
  | (k, v) :: m, s => if k = s then some v else lookupNat m s

/-- Dict assignment for `Nat`-keyed dicts. -/
def insertNat : List (Nat × Nat) → Nat → Nat → List (Nat × Nat)
  | [], k, v => [(k, v)]
  | (k0, v0) :: m, k, v => if k0 = k then (k0, v) :: m else (k0, v0) :: insertNat m k v

/-- First-match lookup for dicts from `Nat` keys to string values. -/
def lookupNatS : List (Nat × String) → Nat → Option String
  | [], _ => none
  | (k, v) :: m, s => if k = s then some v else lookupNatS m s

/-! ### String splitting and stripping: models of `str.split`/`str.strip` -/

/-- Fueled left-to-right non-overlapping split on a separator character
sequence (the fuel is the input length, which bounds the recursion). -/
def splitSepF (sep : List Char) : Nat → List Char → List (List Char)
  | _, [] => [[]]
  | 0, l => [l]
  | f+1, c :: cs =>
    if sep.isPrefixOf (c :: cs) then [] :: splitSepF sep f ((c :: cs).drop sep.length)
    else
      match splitSepF sep f cs with
      | [] => [[c]]
      | g :: gs => (c :: g) :: gs

/-- `s.split(sep)` for a non-empty separator. -/
def splitSep (sep : String) (s : String) : List String :=
  (splitSepF sep.toList s.toList.length s.toList).map String.mk

/-- `s.strip()`. -/
def pyStrip (s : String) : String :=
  String.mk (((s.toList.dropWhile Char.isWhitespace).reverse.dropWhile Char.isWhitespace).reverse)

/-- `s.startswith(c)` for a one-character prefix. -/
def startsC (s : String) (c : Char) : Bool :=
  match s.toList with
  | d :: _ => d == c
  | [] => false

end Caval

namespace Stage42

/-!
Embedding of `scripts/prioel2conllu/stages/42_renumber_ids_per_sentence.py`.

A parsed `<token ... />` line is modeled by the attributes the stage reads
or writes (`id`, `head-id`, `rel`); every other attribute, the attribute
order and the indentation are untouched by the stage and are carried
opaquely in `others`.  `none` models an absent attribute.
-/

open Caval

structure Tok where
  id : Option String
  headId : Option String
  rel : Option String
  others : List (String × String)
deriving DecidableEq, Repr

/-- `is_hyphen_id`: `"-" in id_value`. -/
def is_hyphen_id (s : String) : Bool := s.toList.contains '-'

/-- Python truthiness of an optional attribute value (`None` and `""` are
falsy). -/
def truthy : Option String → Bool
  | none => false
  | some s => !s.isEmpty

/-- `tid.split("-", 1)`: the part before the first hyphen and the rest. -/
def splitDash1 (s : String) : String × String :=
  (String.mk (s.toList.takeWhile (fun c => !(c == '-'))),
   String.mk ((s.toList.dropWhile (fun c => !(c == '-'))).drop 1))

/-- First pass of `build_id_mapping`: sequential numbers for unseen
non-hyphen ids, in order of appearance. -/
def assignSeq : List Tok → List (String × String) → Nat → List (String × String)
  | [], m, _ => m
  | t :: ts, m, c =>
    match t.id with
    | none => assignSeq ts m c
    | some s =>
      if s.isEmpty then assignSeq ts m c
      else if !is_hyphen_id s && (lookupStr m s).isNone then
        assignSeq ts (m ++ [(s, decStr c)]) (c + 1)
      else assignSeq ts m c

/-- Second pass of `build_id_mapping`: map a hyphen id `"A-B"` to
`"map(A)-map(B)"` when both parts are known. -/
def addHyphen : List Tok → List (String × String) → List (String × String)
  | [], m => m
  | t :: ts, m =>
    match t.id with
    | none => addHyphen ts m
    | some s =>
      if s.isEmpty || !is_hyphen_id s then addHyphen ts m
      else
        let p := splitDash1 s
        match lookupStr m p.1, lookupStr m p.2 with
        | some va, some vb => addHyphen ts (insertStr m s (va ++ "-" ++ vb))
        | _, _ => addHyphen ts m

/-- `build_id_mapping`. -/
def build_id_mapping (ts : List Tok) : List (String × String) :=
  addHyphen ts (assignSeq ts [] 1)

/-- `map_head_id`: default a missing or `"_"` head, rewrite a mapped head,
and pass an unmapped head through unchanged. -/
def map_head_id (headId : Option String) (m : List (String × String)) (isHyph : Bool) : String :=
  match headId with
  | none => if isHyph then "_" else "0"
  | some h =>
    if h.isEmpty || h = "_" then (if isHyph then "_" else "0")
    else
      match lookupStr m h with
      | some v => v
      | none => h

/-- `rel_val.split(":", 1)`: the part before the first colon and the rest. -/
def splitColon1 (s : String) : String × String :=
  (String.mk (s.toList.takeWhile (fun c => !(c == ':'))),
   String.mk ((s.toList.dropWhile (fun c => !(c == ':'))).drop 1))

/-- `map_rel_attr`: rewrite the leading id of a `"ID:..."` value when it is
in the mapping. -/
def map_rel_attr (relVal : String) (m : List (String × String)) : String :=
  if !relVal.toList.contains ':' then relVal
  else
    let p := splitColon1 relVal
    match lookupStr m p.1 with
    | some v => v ++ ":" ++ p.2
    | none => relVal

/-- The token-rewrite loop body of `process_sentence` (lines 135-152 of the
stage): new id, head-id default/remap, rel remap. -/
def rewriteTok (m : List (String × String)) (t : Tok) : Tok :=
  let tid := t.id.getD ""
  let newId := (lookupStr m tid).getD tid
  let isHyph := is_hyphen_id newId
  { t with
    id := some newId
    headId := some (map_head_id t.headId m isHyph)
    rel := match t.rel with
      | none => none
      | some r => some (map_rel_attr r m) }

/-- The renumbering-and-head-remap pass of `process_sentence` on the parsed
token list of one sentence. -/
def renumberTokens (ts : List Tok) : List Tok :=
  ts.map (rewriteTok (build_id_mapping ts))

/-- New ids, restricted to the atomic tokens: the id values that are
present, non-empty and not hyphenated. -/
def tokAtomicId (t : Tok) : Option String :=
  match t.id with
  | none => none
  | some s => if !s.isEmpty && !is_hyphen_id s then some s else none

/-- The atomic ids of a sentence, in token order. -/
def atomicIds (ts : List Tok) : List String := ts.filterMap tokAtomicId

/-- Specification-side helper: the association list pairing a key list
with the sequential decimal ids starting at `c`. -/
def zipSeq : List String → Nat → List (String × String)
  | [], _ => []
  | s :: ss, c => (s, decStr c) :: zipSeq ss (c + 1)

end Stage42

namespace Stage03

/-!
Embedding of `scripts/Arak29toConllu/stages/03_fix_exclamations.py`.

`Token` carries the ten CoNLL-U columns plus the private `_mwt_span`
marker.  `Token.from_line` is the 10-column parser; lines with fewer than
10 columns yield `none` and are dropped by `read_conllu`.
-/

open Caval

structure Token where
  id : String
  form : String
  «lemma» : String
  upos : String
  xpos : String
  feats : String
  head : String
  deprel : String
  deps : String
  misc : String
  mwtSpan : Option Nat := none
deriving DecidableEq, Repr

/-- `line.rstrip("\n")`. -/
def stripNl (s : String) : String :=
  String.mk ((s.toList.reverse.dropWhile (fun c => c == '\n')).reverse)

/-- `Token.from_line`: split on tabs, require at least 10 columns, keep the
first ten. -/
def from_line (line : String) : Option Token :=
  let cols := splitSep "\t" (stripNl line)
  if cols.length < 10 then none
  else some
    { id := cols.getD 0 "", form := cols.getD 1 "", «lemma» := cols.getD 2 "",
      upos := cols.getD 3 "", xpos := cols.getD 4 "", feats := cols.getD 5 "",
      head := cols.getD 6 "", deprel := cols.getD 7 "", deps := cols.getD 8 "",
      misc := cols.getD 9 "" }

/-- `_make_mwt`: MWT placeholder with a synthetic id and a span marker. -/
def make_mwt (form : String) (span : Nat) : Token :=
  { id := "MWT", form := form, «lemma» := "_", upos := "_", xpos := "_",
    feats := "_", head := "_", deprel := "_", deps := "_", misc := "_",
    mwtSpan := some span }

/-- The exclamation punct token (`head="BASE"`, resolved later). -/
def exclTok : Token :=
  { id := "EXCL", form := "՜", «lemma» := "՜", upos := "PUNCT", xpos := "_",
    feats := "_", head := "BASE", deprel := "punct", deps := "_", misc := "_" }

/-- The split-out guillemet punct token. -/
def guilTok : Token :=
  { id := "Q", form := "«", «lemma» := "«", upos := "PUNCT", xpos := "_",
    feats := "_", head := "BASE", deprel := "punct", deps := "_", misc := "_" }

/-- Case A of `fix_exclamations`: parts replacing a single token whose form
contains `՜`. -/
def caseAParts (cur : Token) : List Token :=
  let form := cur.form
  let hasGuil := startsC form '«' && form.length > 1
  let span := if hasGuil then 3 else 2
  let baseForm0 := if hasGuil then form.drop 1 else form
  let baseForm := String.mk (baseForm0.toList.filter (fun c => !(c == '՜')))
  let base := { cur with id := "BASE", form := baseForm }
  make_mwt form span :: base :: (if hasGuil then [guilTok] else []) ++ [exclTok]

/-- Case B of `fix_exclamations`: parts replacing a token plus a following
token starting with `՜` (the remainder after the mark is dropped). -/
def caseBParts (cur nxt : Token) : List Token :=
  [make_mwt (cur.form ++ nxt.form) 2, { cur with id := "BASE" }, exclTok]

/-- `fix_exclamations` on the token list of one sentence; also returns the
changed flag. -/
def fix_exclamations : List Token → List Token × Bool
  | [] => ([], false)
  | cur :: rest =>
    if cur.form.toList.contains '՜' then
      let r := fix_exclamations rest
      (caseAParts cur ++ r.1, true)
    else
      match rest with
      | [] => ([cur], false)
      | nxt :: rest2 =>
        if startsC nxt.form '՜' then
          let r := fix_exclamations rest2
          (caseBParts cur nxt ++ r.1, true)
        else
          let r := fix_exclamations (nxt :: rest2)
          (cur :: r.1, r.2)

/-- `str.split("-")` on the character list. -/
def dashSplit : List Char → List (List Char)
  | [] => [[]]
  | c :: cs =>
    if c == '-' then [] :: dashSplit cs
    else
      match dashSplit cs with
      | [] => [[c]]
      | g :: gs => (c :: g) :: gs

/-- Detection of an existing numeric MWT id `"a-b"` (the stage checks
`"-" in id` and `id.replace("-", "").isdigit()`, then calls
`map(int, id.split("-"))`; an id with three or more digit groups makes the
source raise `ValueError`, and no theorem below feeds such an id). -/
def numericMwtParts (s : String) : Option (Nat × Nat) :=
  if !(s.toList.contains '-') then none
  else if !(isDigits (String.mk (s.toList.filter (fun c => !(c == '-'))))) then none
  else
    match dashSplit s.toList with
    | [a, b] => some (natOfStr (String.mk a), natOfStr (String.mk b))
    | _ => none

/-- The inner `for j in range(span)` loop of `renumber_preserving_mwts`:
renumber the next `span` tokens to `start..start+span-1`, recording the
old numeric ids in the id map. -/
def consumeSpan : Nat → Nat → List Token → List (Nat × Nat) →
    List Token × List Token × List (Nat × Nat)
  | _, 0, ts, m => ([], ts, m)
  | _, _+1, [], m => ([], [], m)
  | start, j+1, sub :: rest, m =>
    let sub2 := { sub with id := decStr start }
    let m2 := if isDigits sub.id then insertNat m (natOfStr sub.id) start else m
    let r := consumeSpan (start + 1) j rest m2
    (sub2 :: r.1, r.2.1, r.2.2)

/-- The main `while` loop of `renumber_preserving_mwts` (fueled; the
wrapper passes the list length, which bounds the iteration count). -/
def renGo : Nat → List Token → Nat → List (Nat × Nat) → List Token × List (Nat × Nat)
  | _, [], _, m => ([], m)
  | 0, _ :: _, _, m => ([], m)
  | f+1, tk :: rest, nextId, m =>
    match tk.mwtSpan with
    | some span =>
      let tkOut := { tk with id := decStr nextId ++ "-" ++ decStr (nextId + span - 1) }
      let c := consumeSpan nextId span rest m
      let r := renGo f c.2.1 (nextId + span) c.2.2
      (tkOut :: c.1 ++ r.1, r.2)
    | none =>
      match numericMwtParts tk.id with
      | some ab =>
        let span := ab.2 - ab.1 + 1
        let tkOut := { tk with id := decStr nextId ++ "-" ++ decStr (nextId + span - 1) }
        let c := consumeSpan nextId span rest m
        let r := renGo f c.2.1 (nextId + span) c.2.2
        (tkOut :: c.1 ++ r.1, r.2)
      | none =>
        let tkOut := { tk with id := decStr nextId }
        let m2 := if isDigits tk.id then insertNat m (natOfStr tk.id) nextId else m
        let r := renGo f rest (nextId + 1) m2
        (tkOut :: r.1, r.2)

/-- The backward scan of the second pass: from index `k-1` downward, the
nearest index whose token id has no hyphen. -/
def scanBack (l : List Token) : Nat → Option Nat
  | 0 => none
  | j+1 =>
    if ((l[j]?.map Token.id).getD "").toList.contains '-' then scanBack l j
    else some j

/-- One step of the second (head-fixing) pass of
`renumber_preserving_mwts`, acting at position `n` of the current list
(the source mutates tokens in place while iterating; `result.index(tk)` is
the first position holding a token equal to the current one). -/
def fixHeadAt (m : List (Nat × Nat)) (l : List Token) (n : Nat) : List Token :=
  match l[n]? with
  | none => l
  | some tk =>
    if tk.id.toList.contains '-' then l
    else if isDigits tk.head then
      match lookupNat m (natOfStr tk.head) with
      | some v => l.set n { tk with head := decStr v }
      | none => l
    else if tk.head = "BASE" || tk.head = "EXCL" || tk.head = "Q" then
      let k := l.findIdx (fun x => decide (x = tk))
      match scanBack l k with
      | some q => l.set n { tk with head := (l[q]?.map Token.id).getD tk.id }
      | none => l
    else l

/-- The second pass of `renumber_preserving_mwts`. -/
def fixHeads (m : List (Nat × Nat)) (l : List Token) : List Token :=
  (List.range l.length).foldl (fixHeadAt m) l

/-- `renumber_preserving_mwts`. -/
def renumber_preserving_mwts (ts : List Token) : List Token :=
  let r := renGo ts.length ts 1 []
  fixHeads r.2 r.1

/-- `process_sentence`: exclamation normalization followed by renumbering
(the metadata lines are carried unchanged by the source and omitted). -/
def process_sentence (ts : List Token) : List Token × Bool :=
  let p := fix_exclamations ts
  (renumber_preserving_mwts p.1, p.2)

/-- Heads on which the second (head-fixing) pass acts as the identity: a
canonical decimal numeral (remapping through an identity map rewrites it
to itself) or a non-digit string other than the three placeholders. -/
def headNorm (h : String) : Bool :=
  (isDigits h && decide (decStr (natOfStr h) = h)) ||
  (!isDigits h && !(h = "BASE" || h = "EXCL" || h = "Q"))

/-- Token lists in the normal form targeted by `renumber_preserving_mwts`,
with `n` the next id to assign: ids are already the canonical decimal
sequence, MWT blocks (span-marked or with a numeric range id) are
contiguous with matching member ids, and every head is stable under the
head-fixing pass. -/
inductive Norm03 : Nat → List Token → Prop
  | nil (n : Nat) : Norm03 n []
  | atom (n : Nat) (tk : Token) (ts : List Token) :
      tk.mwtSpan = none → tk.id = decStr n → headNorm tk.head = true →
      Norm03 (n + 1) ts → Norm03 n (tk :: ts)
  | mwtS (n span : Nat) (tk : Token) (subs ts : List Token) :
      tk.mwtSpan = some span →
      tk.id = decStr n ++ "-" ++ decStr (n + span - 1) →
      subs.length = span →
      (∀ (j : Nat) (h : j < subs.length), (subs.get ⟨j, h⟩).id = decStr (n + j) ∧
        headNorm (subs.get ⟨j, h⟩).head = true) →
      Norm03 (n + span) ts → Norm03 n (tk :: subs ++ ts)
  | mwtN (n b : Nat) (tk : Token) (subs ts : List Token) :
      tk.mwtSpan = none →
      tk.id = decStr n ++ "-" ++ decStr b → n ≤ b →
      subs.length = b - n + 1 →
      (∀ (j : Nat) (h : j < subs.length), (subs.get ⟨j, h⟩).id = decStr (n + j) ∧
        headNorm (subs.get ⟨j, h⟩).head = true) →
      Norm03 (n + (b - n + 1)) ts → Norm03 n (tk :: subs ++ ts)

end Stage03

namespace Stage07

/-!
Embedding of `scripts/Arak29toConllu/stages/07_split_attached_punct.py`:
the token dict of `parse_token_line`, the per-token body of
`split_attached_punct`, and the head-remap loop of `renumber_tokens`
(lines 159-168 of the stage).
-/

open Caval

structure TokenP where
  id : String
  form : String
  «lemma» : String
  upostag : String
  xpostag : String
  feats : String
  head : String
  deprel : String
  deps : String
  misc : String
deriving DecidableEq, Repr

/-- `ARM_PUNCT`: the three Armenian marks that attach to words. -/
def armPunct (c : Char) : Bool := c == '՛' || c == '՜' || c == '՞'

/-- `base`: the form with every Armenian punctuation mark removed. -/
def basePart (s : String) : String := String.mk (s.toList.filter (fun c => !(armPunct c)))

/-- `puncts`: the Armenian punctuation marks of the form, in order. -/
def punctPart (s : String) : List Char := s.toList.filter armPunct

/-- `int(s)` guarded by the ids being plain digit strings. -/
def parseNat? (s : String) : Option Nat := if isDigits s then some (natOfStr s) else none

/-- The punctuation-only branch: the token becomes one PUNCT token per
mark, keeping its id and head. -/
def onlyPunctTok (tk : TokenP) (p : Char) : TokenP :=
  { tk with
    form := String.mk [p]
    «lemma» := String.mk [p]
    upostag := "PUNCT"
    xpostag := "_"
    feats := "_"
    deprel := "punct"
    deps := "_"
    misc := "_" }

/-- A split-off punctuation token (`enumerate(puncts, start=1)` numbering,
head pointing at the old id of the split token). -/
def punctTok (oldId : String) (base off : Nat) (p : Char) : TokenP :=
  { id := decStr (base + off), form := String.mk [p], «lemma» := String.mk [p],
    upostag := "PUNCT", xpostag := "_", feats := "_", head := oldId,
    deprel := "punct", deps := "_", misc := "_" }

/-- The `for offset, p in enumerate(puncts, start=1)` loop. -/
def punctToks (oldId : String) (n : Nat) : Nat → List Char → List TokenP
  | _, [] => []
  | off, p :: ps => punctTok oldId n off p :: punctToks oldId n (off + 1) ps

/-- The per-token body of `split_attached_punct`; `none` models the
`int(tk["id"])` failure on a non-numeric id. -/
def splitOne (tk : TokenP) : Option (List TokenP) :=
  if !(tk.form.toList.any armPunct) then some [tk]
  else
    let base := basePart tk.form
    let puncts := punctPart tk.form
    if base = "" then some (puncts.map (onlyPunctTok tk))
    else
      match parseNat? tk.id with
      | none => none
      | some n =>
        let mwt : TokenP :=
          { id := tk.id ++ "-" ++ decStr (n + puncts.length), form := tk.form,
            «lemma» := "_", upostag := "_", xpostag := "_", feats := "_",
            head := "_", deprel := "_", deps := "_", misc := "_" }
        some (mwt :: { tk with form := base } :: punctToks tk.id n 1 puncts)

/-- `split_attached_punct` over a sentence, with the changed flag. -/
def split_attached_punct : List TokenP → Option (List TokenP × Bool)
  | [] => some ([], false)
  | tk :: rest =>
    match splitOne tk, split_attached_punct rest with
    | some parts, some r => some (parts ++ r.1, tk.form.toList.any armPunct || r.2)
    | _, _ => none

/-- The head-remap loop of `renumber_tokens`: a digit head found in the
old-to-new map is rewritten; anything else is kept as it is. -/
def remapHead (m : List (Nat × String)) (tk : TokenP) : TokenP :=
  if tk.id.toList.contains '-' then tk
  else if isDigits tk.head then
    match lookupNatS m (natOfStr tk.head) with
    | some v => if v.isEmpty then tk else { tk with head := v }
    | none => tk
  else tk

/-- The full remap phase over the renumbered list. -/
def remapHeads (m : List (Nat × String)) (ts : List TokenP) : List TokenP :=
  ts.map (remapHead m)

end Stage07

namespace Stage40

/-!
Embedding of `scripts/prioel2conllu/stages/40_collapse_multiple_roots.py`.
A token line is modeled by the attributes the stage reads or writes
(`id`, `relation`, `head-id`); the rest of the line is carried opaquely.
-/

structure Tok40 where
  id : Option String
  relation : Option String
  headId : Option String
  others : List (String × String)
deriving DecidableEq, Repr

/-- `root_info`: `(index, id)` for every token with `relation="root"` and
a truthy id, in order of appearance. -/
def rootInfo (ts : List Tok40) : List (Nat × String) :=
  ts.enum.filterMap fun p =>
    if p.2.relation = some "root" then
      match p.2.id with
      | some s => if s.isEmpty then none else some (p.1, s)
      | none => none
    else none

/-- Demote one later root: reattach it to the preceding root with
relation `ccomp` (the `if not prev_id` guard of the source included). -/
def demote (l : List Tok40) (pc : (Nat × String) × (Nat × String)) : List Tok40 :=
  if pc.1.2.isEmpty then l
  else
    match l[pc.2.1]? with
    | some tk => l.set pc.2.1 { tk with headId := some pc.1.2, relation := some "ccomp" }
    | none => l

/-- `process_sentence` of stage 40. -/
def process_sentence (ts : List Tok40) : List Tok40 :=
  let ri := rootInfo ts
  if ri.length ≤ 1 then ts
  else (ri.zip ri.tail).foldl demote ts

/-- The update applied to a demoted root token. -/
def demoted (prevId : String) (tk : Tok40) : Tok40 :=
  { tk with headId := some prevId, relation := some "ccomp" }

end Stage40

namespace Stage12

/-!
Embedding of the file driver of
`scripts/prioel2conllu/stages/12_remove_empty_c_tokens.py` on input
containing no `empty-token-sort="C"` token, which is the unedited
(round-trip) path: `process_sentence` then only filters blank lines and
rejoins, and `process_file` splits on `"\n</sentence>"` and joins the
processed blocks with `"\n"`.  The C-token editing branch is irrelevant
to the round-trip claim and is not modeled: a block containing the marker
makes the model return `none`.
-/

/-- Does the line contain the substring `empty-token-sort="C"`? -/
def containsMarker (s : String) : Bool :=
  (Caval.splitSep "empty-token-sort=\"C\"" s).length != 1

/-- `process_sentence` on a marker-free block. -/
def process_sentence (block : String) : Option String :=
  let lines := (Caval.splitSep "\n" block).filter (fun l => !(Caval.pyStrip l).isEmpty)
  if lines.any containsMarker then none
  else some (String.intercalate "\n" lines)

/-- The per-part processing of `process_file`: blank parts are kept as
they are, others are stripped and processed. -/
def processParts : List String → Option (List String)
  | [] => some []
  | p :: ps =>
    match (if (Caval.pyStrip p).isEmpty then some p else process_sentence (Caval.pyStrip p)),
        processParts ps with
    | some r, some rs => some (r :: rs)
    | _, _ => none

/-- `process_file` of stage 12: split on `"\n</sentence>"`, process, and
join the parts with `"\n"`. -/
def process_file (text : String) : Option String :=
  (processParts (Caval.splitSep "\n</sentence>" text)).map (String.intercalate "\n")

/-- Does a text contain the end-of-sentence marker anywhere? -/
def hasSentEnd (s : String) : Bool := (Caval.splitSep "</sentence>" s).length != 1

end Stage12

namespace Stage18

/-!
Embedding of `parse_conllu_sentence` and `format_conllu_sentence` of
`scripts/Arak29toConllu/stages/18_merge_pos_feats_heads_by_textmatch.py`.
-/

structure Tok18 where
  token_id : String
  form : String
  «lemma» : String
  upostag : String
  xpostag : String
  feats : String
  head : String
  deprel : String
  deps : String
  misc : String
deriving DecidableEq, Repr

/-- The loop body of `parse_conllu_sentence`: skip blank and comment
lines, skip lines with fewer than ten columns, keep the first ten
columns otherwise. -/
def lineTok (line : String) : Option Tok18 :=
  if line.isEmpty || Caval.startsC line '#' then none
  else
    let cols := Caval.splitSep "\t" line
    if cols.length < 10 then none
    else some
      { token_id := cols.getD 0 "", form := cols.getD 1 "", «lemma» := cols.getD 2 "",
        upostag := cols.getD 3 "", xpostag := cols.getD 4 "", feats := cols.getD 5 "",
        head := cols.getD 6 "", deprel := cols.getD 7 "", deps := cols.getD 8 "",
        misc := cols.getD 9 "" }

/-- The token list produced by the parse loop over the lines of a block. -/
def lineTokens (lines : List String) : List Tok18 := lines.filterMap lineTok

/-- `parse_conllu_sentence`. -/
def parse_conllu_sentence (block : String) : List Tok18 :=
  lineTokens (Caval.splitSep "\n" (Caval.pyStrip block))

/-- The `or "_"` defaulting of `format_conllu_sentence`. -/
def orUnd (s : String) : String := if s.isEmpty then "_" else s

/-- One row of `format_conllu_sentence`. -/
def format_row (t : Tok18) : String :=
  String.intercalate "\t"
    [orUnd t.token_id, orUnd t.form, orUnd t.«lemma», orUnd t.upostag, orUnd t.xpostag,
     orUnd t.feats, orUnd t.head, orUnd t.deprel, orUnd t.deps, orUnd t.misc]

/-- `format_conllu_sentence`. -/
def format_conllu_sentence (ts : List Tok18) : String :=
  String.intercalate "\n" (ts.map format_row)

end Stage18

namespace Stage00

/-!
Embedding of `scripts/prioel2conllu/stages/00_split_ibrew_z.py`.

As shipped the module does not parse: the replacement literal of
`set_attr` (line 51) carries the invalid string prefix frf, so importing
the stage raises SyntaxError before any input is read and none of its
functions can run.  The one self-contained, syntactically valid piece of
the stage is `replace_id_suffix`, the substitution that is supposed to
give the duplicated `z` line its new id; it is embedded below together
with the word-boundary semantics of its pattern.
-/

open Caval

/-- ASCII word characters (letters, digits, underscore), the alphabet
relevant to the boundary positions tested below: in the documented line
format the character after a closing quote is a space or the end of the
line, which is a non-word position under any word-character alphabet. -/
def isWordChar (c : Char) : Bool := c.isAlphanum || c == '_'

/-- Does the pattern of `replace_id_suffix` match at the head of `s`?
`prev` is the character just before `s` (`none` at the start of the
line).  The leading word boundary sits before the word character `i` of
`id=`, so it needs `prev` absent or non-word; the trailing word boundary
sits right after the closing quote, a non-word character, so it needs a
following word character, and at the end of the line it cannot match. -/
def boundaryMatchAt (prev : Option Char) (pat s : List Char) : Bool :=
  (match prev with
   | none => true
   | some c => ! isWordChar c) &&
  pat.isPrefixOf s &&
  (match s.drop pat.length with
   | [] => false
   | c :: _ => isWordChar c)

/-- The `count=1` substitution of `replace_id_suffix`: replace the first
boundary-delimited occurrence of `pat` by `rep`; when the pattern never
matches the line is returned unchanged. -/
def subIdOnce (pat rep : List Char) : Option Char → List Char → List Char
  | _, [] => []
  | prev, c :: rest =>
    if boundaryMatchAt prev pat (c :: rest) then rep ++ (c :: rest).drop pat.length
    else c :: subIdOnce pat rep (some c) rest

/-- `replace_id_suffix(line, old_id, new_suffix)`. -/
def replace_id_suffix (line old_id new_suffix : String) : String :=
  String.mk (subIdOnce ("id=\"" ++ old_id ++ "\"").toList
    ("id=\"" ++ old_id ++ new_suffix ++ "\"").toList none line.toList)

/-- Scan of the stage's documented attribute-line format, with `b` the
inside-a-quoted-value state: quotes alternate between opening and
closing, and every closing quote is followed by a space or ends the
line. -/
def quoteFmt : Bool → List Char → Bool
  | b, [] => !b
  | false, c :: rest => if c == '"' then quoteFmt true rest else quoteFmt false rest
  | true, c :: rest =>
    if c == '"' then
      match rest with
      | [] => true
      | d :: _ => (d == ' ') && quoteFmt false rest
    else quoteFmt true rest

end Stage00

/-!
## Theorems

Concrete evaluations first (counterexamples and worked examples), then the
general properties with their helper lemmas.
-/

/-- C9: on the single-token sentence whose token has id `1` and form
`Աւա՜ղ`, the exclamation split followed by renumbering yields, in order,
the span line `1-2` with the original surface form, the base token `1`
with form `Աւաղ`, and the punctuation token `2` with form `՜`, head `1`
and deprel `punct`. -/
theorem C9_exclamation_split_example :
    Stage03.process_sentence
        [⟨"1", "Աւա՜ղ", "աւաղ", "INTJ", "_", "_", "0", "discourse", "_", "_", none⟩] =
      ([⟨"1-2", "Աւա՜ղ", "_", "_", "_", "_", "_", "_", "_", "_", some 2⟩,
        ⟨"1", "Աւաղ", "աւաղ", "INTJ", "_", "_", "0", "discourse", "_", "_", none⟩,
        ⟨"2", "՜", "՜", "PUNCT", "_", "_", "1", "punct", "_", "_", none⟩], true) := by
  decide

/-- C3: on a three-member span (guillemet split out between the base and
the exclamation token), the second resolution pass attaches the
exclamation token to the guillemet token (head `2`), not to the first
member of its own span (head `1`): the backward scan stops at the nearest
preceding atomic token, contradicting both the spec and the source's own
comment that the nearest previous non-MWT token "will be the base". -/
theorem C3_three_member_span_head_eval :
    Stage03.process_sentence
        [⟨"1", "«Աւա՜ղ", "աւաղ", "INTJ", "_", "_", "0", "discourse", "_", "_", none⟩] =
      ([⟨"1-3", "«Աւա՜ղ", "_", "_", "_", "_", "_", "_", "_", "_", some 3⟩,
        ⟨"1", "Աւաղ", "աւաղ", "INTJ", "_", "_", "0", "discourse", "_", "_", none⟩,
        ⟨"2", "«", "«", "PUNCT", "_", "_", "1", "punct", "_", "_", none⟩,
        ⟨"3", "՜", "՜", "PUNCT", "_", "_", "2", "punct", "_", "_", none⟩], true) := by
  decide

/-- C1 (counterexample): two distinct tokens that share the reused old id
`5` both receive the new id `1`, so the atomic ids after renumbering are
`["1", "1"]` — not the unique integers `1..2` claimed for a sentence with
two atomic tokens. -/
theorem C1_reused_id_counterexample :
    Stage42.atomicIds (Stage42.renumberTokens
        [⟨some "5", some "0", none, []⟩, ⟨some "5", some "0", none, []⟩]) = ["1", "1"] ∧
    ¬ (Stage42.atomicIds (Stage42.renumberTokens
        [⟨some "5", some "0", none, []⟩, ⟨some "5", some "0", none, []⟩])).Nodup := by
  decide

/-- C2 (counterexample): the head reference `7` resolves to no token
(the only token gets new id `1`), yet the pass silently leaves it in the
output unchanged — the result is just the rewritten token list, with no
fault value of any kind. -/
theorem C2_dangling_head_counterexample :
    Stage42.renumberTokens [⟨some "5", some "7", none, []⟩] =
        [⟨some "1", some "7", none, []⟩] ∧
    Stage42.atomicIds (Stage42.renumberTokens [⟨some "5", some "7", none, []⟩]) = ["1"] := by
  decide

/-- C4 (counterexample): the word-internal exclamation mark of `Աւա՜ղ`
makes the split emit base `Աւաղ` followed by the mark `՜`, whose
concatenation `Աւաղ՜` differs from the original form `Աւա՜ղ` — only the
span line retains the original surface form. -/
theorem C4_word_internal_counterexample :
    Stage07.splitOne ⟨"1", "Աւա՜ղ", "աւաղ", "INTJ", "_", "_", "0", "discourse", "_", "_"⟩ =
      some [⟨"1-2", "Աւա՜ղ", "_", "_", "_", "_", "_", "_", "_", "_"⟩,
        ⟨"1", "Աւաղ", "աւաղ", "INTJ", "_", "_", "0", "discourse", "_", "_"⟩,
        ⟨"2", "՜", "՜", "PUNCT", "_", "_", "1", "punct", "_", "_"⟩] ∧
    ("Աւաղ" ++ "՜" : String) ≠ "Աւա՜ղ" := by
  decide

/-- C5: stage 12 splits its input on `"\n</sentence>"` but joins the
processed blocks with a bare `"\n"`, so serializing unedited sentences
loses every explicit end-of-sentence marker: the input below contains the
marker twice and the output not at all, although nothing was edited. -/
theorem C5_marker_lost_eval :
    Stage12.process_file "<token id=\"1\" />\n</sentence>\n<token id=\"2\" />\n</sentence>\n" =
      some "<token id=\"1\" />\n<token id=\"2\" />\n\n" ∧
    Stage12.hasSentEnd "<token id=\"1\" />\n</sentence>\n<token id=\"2\" />\n</sentence>\n" = true ∧
    Stage12.hasSentEnd "<token id=\"1\" />\n<token id=\"2\" />\n\n" = false := by
  decide

/-- C6 (counterexample): a second root token lacking an id attribute is
not collected by the stage, so the sentence is returned unchanged and
still contains two tokens with relation `root` — the id-less root is
neither reattached nor demoted. -/
theorem C6_idless_root_counterexample :
    Stage40.process_sentence
        [⟨some "1", some "root", some "0", []⟩, ⟨none, some "root", some "0", []⟩] =
      [⟨some "1", some "root", some "0", []⟩, ⟨none, some "root", some "0", []⟩] ∧
    ((([⟨some "1", some "root", some "0", []⟩, ⟨none, some "root", some "0", []⟩] :
        List Stage40.Tok40).filter (fun t => t.relation = some "root")).length = 2) := by
  decide

/-- C8 (counterexample): the one-column line `oops` between two
well-formed token lines is dropped by the parser without any trace — the
parse result holds exactly the two good tokens and the serialized block
no longer contains the malformed line; the parse functions return only
the token list, so no warning is possible in any mode. -/
theorem C8_silent_drop_counterexample :
    Stage18.parse_conllu_sentence
        "1\tա\t_\t_\t_\t_\t0\troot\t_\t_\noops\n2\tբ\t_\t_\t_\t_\t1\tpunct\t_\t_" =
      [⟨"1", "ա", "_", "_", "_", "_", "0", "root", "_", "_"⟩,
       ⟨"2", "բ", "_", "_", "_", "_", "1", "punct", "_", "_"⟩] ∧
    Stage18.format_conllu_sentence
        [⟨"1", "ա", "_", "_", "_", "_", "0", "root", "_", "_"⟩,
         ⟨"2", "բ", "_", "_", "_", "_", "1", "punct", "_", "_"⟩] =
      "1\tա\t_\t_\t_\t_\t0\troot\t_\t_\n2\tբ\t_\t_\t_\t_\t1\tpunct\t_\t_" := by
  decide

/-! ### Helper lemmas -/

theorem join_cons_str (a : String) (l : List String) :
    String.join (a :: l) = a ++ String.join l := by
  rw [String.join_eq, String.join_eq]
  simp
  rfl

theorem punctToks_join (oldId : String) (n : Nat) :
    ∀ (ps : List Char) (off : Nat),
      String.join ((Stage07.punctToks oldId n off ps).map Stage07.TokenP.form) = String.mk ps
  | [], _ => rfl
  | p :: ps, off => by
    rw [Stage07.punctToks, List.map_cons, join_cons_str, punctToks_join oldId n ps (off + 1)]
    rfl

/-- C8 (amended): a token line with fewer than ten tab-separated columns
is silently skipped by the parser — the parse of a block containing it is
exactly the parse of the block without it, so neighboring well-formed
lines are never corrupted; but there is no mode selection and no warning
(the parse functions return only the token list), and the line is not
passed through. -/
theorem C8_malformed_line_silently_skipped (pre post : List String) (bad : String)
    (h1 : bad.isEmpty = false) (h2 : Caval.startsC bad '#' = false)
    (h3 : (Caval.splitSep "\t" bad).length < 10) :
    Stage18.lineTokens (pre ++ bad :: post) =
      Stage18.lineTokens pre ++ Stage18.lineTokens post := by
  have hb : Stage18.lineTok bad = none := by
    unfold Stage18.lineTok
    simp [h1, h2, h3]
  unfold Stage18.lineTokens
  simp [List.filterMap_append, List.filterMap_cons, hb]

/-- Witness for C8: a concrete nine-columns-short line between two good
lines. -/
theorem C8_malformed_line_witness :
    Stage18.lineTokens ["1\tա\t_\t_\t_\t_\t0\troot\t_\t_", "oops",
        "2\tբ\t_\t_\t_\t_\t1\tpunct\t_\t_"] =
      Stage18.lineTokens ["1\tա\t_\t_\t_\t_\t0\troot\t_\t_"] ++
        Stage18.lineTokens ["2\tբ\t_\t_\t_\t_\t1\tpunct\t_\t_"] :=
  C8_malformed_line_silently_skipped ["1\tա\t_\t_\t_\t_\t0\troot\t_\t_"]
    ["2\tբ\t_\t_\t_\t_\t1\tpunct\t_\t_"] "oops" (by decide) (by decide) (by decide)

/-- C2 (amended): a numeric head reference that is not found in the
old-to-new id map is passed through to the output unchanged — it is never
dropped and never auto-repaired, but it is not reported either: both
renumbering passes return only the rewritten tokens, with no fault
channel. -/
theorem C2_dangling_head_passthrough :
    (∀ (m : List (String × String)) (h : String) (b : Bool),
      h.isEmpty = false → h ≠ "_" → Caval.lookupStr m h = none →
      Stage42.map_head_id (some h) m b = h) ∧
    (∀ (m : List (Nat × String)) (tk : Stage07.TokenP),
      tk.id.toList.contains '-' = false →
      Caval.lookupNatS m (Caval.natOfStr tk.head) = none →
      Stage07.remapHead m tk = tk) := by
  constructor
  · intro m h b h1 h2 h3
    unfold Stage42.map_head_id
    simp [h1, h2, h3]
  · intro m tk h1 h2
    unfold Stage07.remapHead
    simp [h1, h2]

/-- Witness for C2: the dangling head `7` under an empty map survives both
passes unchanged. -/
theorem C2_dangling_head_witness :
    Stage42.map_head_id (some "7") [] false = "7" ∧
    Stage07.remapHead [] ⟨"1", "x", "_", "_", "_", "_", "9", "_", "_", "_"⟩ =
      ⟨"1", "x", "_", "_", "_", "_", "9", "_", "_", "_"⟩ :=
  ⟨C2_dangling_head_passthrough.1 [] "7" false (by decide) (by decide) rfl,
   C2_dangling_head_passthrough.2 [] ⟨"1", "x", "_", "_", "_", "_", "9", "_", "_", "_"⟩
     (by decide) rfl⟩

/-- C4 (amended): when a token whose form contains Armenian punctuation is
split (base non-empty, id numeric), the span line keeps the original form
verbatim, and concatenating the parts' forms in output order yields the
form's non-punctuation characters followed by its punctuation marks — the
original form is reconstructed exactly iff every mark is form-final, and
word-internal marks make the concatenation differ from the original. -/
theorem C4_split_stable_partition (tk : Stage07.TokenP) (n : Nat)
    (h1 : tk.form.toList.any Stage07.armPunct = true)
    (h2 : Stage07.basePart tk.form ≠ "")
    (h3 : Stage07.parseNat? tk.id = some n) :
    ∃ mwt rest, Stage07.splitOne tk = some (mwt :: rest) ∧
      mwt.form = tk.form ∧
      String.join (rest.map Stage07.TokenP.form) =
        Stage07.basePart tk.form ++ String.mk (Stage07.punctPart tk.form) := by
  refine ⟨⟨tk.id ++ "-" ++ Caval.decStr (n + (Stage07.punctPart tk.form).length), tk.form,
      "_", "_", "_", "_", "_", "_", "_", "_"⟩,
    { tk with form := Stage07.basePart tk.form } ::
      Stage07.punctToks tk.id n 1 (Stage07.punctPart tk.form), ?_, rfl, ?_⟩
  · unfold Stage07.splitOne
    rw [h1, h3]
    simp [h2]
  · rw [List.map_cons, join_cons_str, punctToks_join]

/-- Witness for C4: the concrete split of `Աւա՜ղ`. -/
theorem C4_split_stable_partition_witness :
    ∃ mwt rest,
      Stage07.splitOne ⟨"1", "Աւա՜ղ", "աւաղ", "INTJ", "_", "_", "0", "discourse", "_", "_"⟩ =
        some (mwt :: rest) ∧
      mwt.form = "Աւա՜ղ" ∧
      String.join (rest.map Stage07.TokenP.form) =
        Stage07.basePart "Աւա՜ղ" ++ String.mk (Stage07.punctPart "Աւա՜ղ") :=
  C4_split_stable_partition ⟨"1", "Աւա՜ղ", "աւաղ", "INTJ", "_", "_", "0", "discourse", "_", "_"⟩
    1 (by decide) (by decide) (by decide)

namespace Stage40

/-- Inversion of the `root_info` collection step. -/
theorem rootF_eq_some {p : Nat × Tok40} {q : Nat × String} :
    (if p.2.relation = some "root" then
        match p.2.id with
        | some s => if s.isEmpty then none else some (p.1, s)
        | none => none
      else none) = some q ↔
      p.2.relation = some "root" ∧ p.2.id = some q.2 ∧ q.2.isEmpty = false ∧ q.1 = p.1 := by
  by_cases hrel : p.2.relation = some "root"
  · simp only [hrel, if_true, true_and]
    match hid : p.2.id with
    | none => simp
    | some s0 =>
      by_cases he : s0.isEmpty
      · simp only [he, ite_true]
        constructor
        · intro h
          cases h
        · rintro ⟨h1, h2, h3⟩
          rw [Option.some_inj] at h1
          rw [← h1] at h2
          simp [he] at h2
      · simp only [he, Bool.false_eq_true, ite_false, Option.some_inj]
        constructor
        · rintro rfl
          simp [he]
        · rintro ⟨h1, h2, h3⟩
          cases h1
          cases q
          simp_all
  · simp [hrel]

theorem rootInfo_mem_iff (ts : List Tok40) (i : Nat) (s : String) :
    (i, s) ∈ rootInfo ts ↔
      ∃ t, ts[i]? = some t ∧ t.relation = some "root" ∧ t.id = some s ∧ s.isEmpty = false := by
  unfold rootInfo
  rw [List.mem_filterMap]
  constructor
  · rintro ⟨⟨j, t⟩, hmem, hf⟩
    rw [List.mk_mem_enum_iff_getElem?] at hmem
    obtain ⟨h1, h2, h3, h4⟩ := rootF_eq_some.mp hf
    subst h4
    exact ⟨t, hmem, h1, h2, h3⟩
  · rintro ⟨t, hget, hrel, hid, hne⟩
    exact ⟨(i, t), List.mk_mem_enum_iff_getElem?.mpr hget,
      rootF_eq_some.mpr ⟨hrel, hid, hne, rfl⟩⟩

/-- A `filterMap` that preserves the first component yields a sublist of
the first components. -/
theorem filterMap_fst_sublist {α β : Type _} (f : Nat × α → Option (Nat × β))
    (hf : ∀ p q, f p = some q → q.1 = p.1) :
    ∀ (l : List (Nat × α)), ((l.filterMap f).map Prod.fst).Sublist (l.map Prod.fst)
  | [] => by simp
  | p :: l => by
    rw [List.filterMap_cons, List.map_cons]
    cases hq : f p with
    | none => exact (filterMap_fst_sublist f hf l).cons _
    | some q =>
      rw [List.map_cons, hf p q hq]
      exact (filterMap_fst_sublist f hf l).cons₂ _

theorem rootInfo_fst_nodup (ts : List Tok40) : ((rootInfo ts).map Prod.fst).Nodup := by
  have hs := filterMap_fst_sublist _ (fun p q hq => (rootF_eq_some.mp hq).2.2.2) ts.enum
  have : (rootInfo ts).map Prod.fst = (ts.enum.filterMap _).map Prod.fst := rfl
  refine (this ▸ hs).nodup ?_
  rw [List.enum_map_fst]
  exact List.nodup_range _

end Stage40

namespace Stage40

theorem demote_getElem_ne (l : List Tok40) (pc : (Nat × String) × (Nat × String)) (k : Nat)
    (hk : k ≠ pc.2.1) : (demote l pc)[k]? = l[k]? := by
  unfold demote
  split
  · rfl
  · cases h : l[pc.2.1]? with
    | none => rfl
    | some tk => exact List.getElem?_set_ne (fun e => hk e.symm)

theorem demote_getElem_self (l : List Tok40) (pc : (Nat × String) × (Nat × String))
    (hne : pc.1.2.isEmpty = false) :
    (demote l pc)[pc.2.1]? = (l[pc.2.1]?).map (demoted pc.1.2) := by
  unfold demote
  rw [if_neg (by simp [hne])]
  cases h : l[pc.2.1]? with
  | none => exact h
  | some tk =>
    show (l.set pc.2.1 _)[pc.2.1]? = _
    rw [List.getElem?_set_self', h]
    rfl

theorem foldl_demote_ne (P : List ((Nat × String) × (Nat × String))) (l : List Tok40) (k : Nat)
    (hk : ∀ pc ∈ P, k ≠ pc.2.1) : (P.foldl demote l)[k]? = l[k]? := by
  induction P generalizing l with
  | nil => rfl
  | cons q P ih =>
    rw [List.foldl_cons, ih _ (fun pc h => hk pc (List.mem_cons_of_mem _ h)),
      demote_getElem_ne _ _ _ (hk q (List.mem_cons_self _ _))]

theorem foldl_demote_at : ∀ (P : List ((Nat × String) × (Nat × String))) (l : List Tok40)
    (pc : (Nat × String) × (Nat × String)), pc ∈ P →
    (P.map (fun x => x.2.1)).Nodup → (∀ x ∈ P, x.1.2.isEmpty = false) →
    (P.foldl demote l)[pc.2.1]? = (l[pc.2.1]?).map (demoted pc.1.2)
  | [], _, pc, hmem, _, _ => absurd hmem (by simp)
  | q :: P, l, pc, hmem, hnd, hne => by
    rw [List.map_cons, List.nodup_cons] at hnd
    rw [List.foldl_cons]
    rcases List.mem_cons.mp hmem with rfl | hmem2
    · rw [foldl_demote_ne P _ _ ?_, demote_getElem_self _ _ (hne pc (List.mem_cons_self _ _))]
      intro x hx he
      exact hnd.1 (he ▸ List.mem_map_of_mem (fun y => y.2.1) hx)
    · rw [foldl_demote_at P (demote l q) pc hmem2 hnd.2
          (fun x hx => hne x (List.mem_cons_of_mem _ hx)),
        demote_getElem_ne]
      intro he
      exact hnd.1 (he ▸ List.mem_map_of_mem (fun y => y.2.1) hmem2)

end Stage40

/-- C6 (amended): after the multiple-root collapse, every id-bearing root
after the first is reattached to the preceding id-bearing root with
relation `ccomp`; tokens at all other positions are unchanged; and any
token that still has relation `root` and a truthy id sits at the position
of the first collected root — so exactly one id-bearing root remains, but
a root token lacking an id attribute is skipped and left in place. -/
theorem C6_single_root_amended (ts : List Stage40.Tok40) :
    (∀ pc ∈ (Stage40.rootInfo ts).zip (Stage40.rootInfo ts).tail,
      (Stage40.process_sentence ts)[pc.2.1]? =
        (ts[pc.2.1]?).map (Stage40.demoted pc.1.2)) ∧
    (∀ k, k ∉ ((Stage40.rootInfo ts).tail.map Prod.fst) →
      (Stage40.process_sentence ts)[k]? = ts[k]?) ∧
    (∀ k t s, (Stage40.process_sentence ts)[k]? = some t → t.relation = some "root" →
      t.id = some s → s.isEmpty = false →
      ∀ p rest, Stage40.rootInfo ts = p :: rest → k = p.1) := by
  have hcurrs : ((Stage40.rootInfo ts).zip (Stage40.rootInfo ts).tail).map (fun x => x.2.1) =
      (Stage40.rootInfo ts).tail.map Prod.fst := by
    rw [show (fun (x : (Nat × String) × (Nat × String)) => x.2.1) =
        (Prod.fst ∘ Prod.snd) from rfl]
    rw [← List.map_map, List.map_snd_zip]
    cases Stage40.rootInfo ts <;> simp
  have hnd2 : ((Stage40.rootInfo ts).tail.map Prod.fst).Nodup := by
    have h := Stage40.rootInfo_fst_nodup ts
    cases hri : Stage40.rootInfo ts with
    | nil => simp
    | cons p rest =>
      rw [hri, List.map_cons, List.nodup_cons] at h
      exact h.2
  have hne : ∀ x ∈ (Stage40.rootInfo ts).zip (Stage40.rootInfo ts).tail,
      x.1.2.isEmpty = false := by
    intro x hx
    have hmem : x.1 ∈ Stage40.rootInfo ts := (List.of_mem_zip hx).1
    have : (x.1.1, x.1.2) ∈ Stage40.rootInfo ts := by simpa using hmem
    obtain ⟨t, _, _, _, h4⟩ := (Stage40.rootInfo_mem_iff ts x.1.1 x.1.2).mp this
    exact h4
  by_cases hlen : (Stage40.rootInfo ts).length ≤ 1
  · have hout : Stage40.process_sentence ts = ts := by
      unfold Stage40.process_sentence
      rw [if_pos hlen]
    have hzip : (Stage40.rootInfo ts).zip (Stage40.rootInfo ts).tail = [] := by
      cases hri : Stage40.rootInfo ts with
      | nil => rfl
      | cons p rest =>
        rw [hri] at hlen
        simp at hlen
        rw [hlen]
        rfl
    refine ⟨?_, ?_, ?_⟩
    · intro pc hpc
      rw [hzip] at hpc
      cases hpc
    · intro k _
      rw [hout]
    · intro k t s hget hrel hid hne2 p rest hri
      rw [hout] at hget
      have hmem : (k, s) ∈ Stage40.rootInfo ts :=
        (Stage40.rootInfo_mem_iff ts k s).mpr ⟨t, hget, hrel, hid, hne2⟩
      rw [hri] at hmem hlen
      simp at hlen
      rw [hlen] at hmem
      rcases List.mem_cons.mp hmem with h | h
      · exact congrArg Prod.fst h
      · cases h
  · have hout : Stage40.process_sentence ts =
        ((Stage40.rootInfo ts).zip (Stage40.rootInfo ts).tail).foldl Stage40.demote ts := by
      unfold Stage40.process_sentence
      rw [if_neg hlen]
    have hndc : (((Stage40.rootInfo ts).zip (Stage40.rootInfo ts).tail).map
        (fun x => x.2.1)).Nodup := by rw [hcurrs]; exact hnd2
    refine ⟨?_, ?_, ?_⟩
    · intro pc hpc
      rw [hout]
      exact Stage40.foldl_demote_at _ ts pc hpc hndc hne
    · intro k hk
      rw [hout]
      refine Stage40.foldl_demote_ne _ ts k ?_
      intro pc hpc he
      exact hk (he ▸ hcurrs ▸ List.mem_map_of_mem (fun x => x.2.1) hpc)
    · intro k t s hget hrel hid hne2 p rest hri
      by_cases hmem : k ∈ (Stage40.rootInfo ts).tail.map Prod.fst
      · obtain ⟨pc, hpc, hpck⟩ : ∃ pc ∈ (Stage40.rootInfo ts).zip (Stage40.rootInfo ts).tail,
            pc.2.1 = k := by
          rw [← hcurrs] at hmem
          obtain ⟨pc, hpc, he⟩ := List.mem_map.mp hmem
          exact ⟨pc, hpc, he⟩
        have := Stage40.foldl_demote_at _ ts pc hpc hndc hne
        rw [← hout, hpck, hget] at this
        cases hts : ts[k]? with
        | none => rw [hts] at this; cases this
        | some tk =>
          rw [hts] at this
          have : t = Stage40.demoted pc.1.2 tk := by
            injection this.symm with h
            exact h.symm
          rw [this] at hrel
          unfold Stage40.demoted at hrel
          simp at hrel
      · have hout2 : (Stage40.process_sentence ts)[k]? = ts[k]? := by
          rw [hout]
          refine Stage40.foldl_demote_ne _ ts k ?_
          intro pc hpc he
          exact hmem (he ▸ hcurrs ▸ List.mem_map_of_mem (fun x => x.2.1) hpc)
        rw [hout2] at hget
        have hmem2 : (k, s) ∈ Stage40.rootInfo ts :=
          (Stage40.rootInfo_mem_iff ts k s).mpr ⟨t, hget, hrel, hid, hne2⟩
        rw [hri] at hmem2
        rcases List.mem_cons.mp hmem2 with h | h
        · exact congrArg Prod.fst h
        · exfalso
          apply hmem
          have : (k, s) ∈ (Stage40.rootInfo ts).tail := by rw [hri]; exact h
          simpa using List.mem_map_of_mem Prod.fst this

/-- Witness for C6: two id-bearing roots; the second is demoted onto the
first, the first stays, and the only remaining id-bearing root is at the
first root's position. -/
theorem C6_single_root_witness :
    (Stage40.process_sentence
        [⟨some "1", some "root", some "0", []⟩, ⟨some "2", some "root", some "0", []⟩])[1]? =
      (([⟨some "1", some "root", some "0", []⟩,
          ⟨some "2", some "root", some "0", []⟩] : List Stage40.Tok40)[1]?).map
        (Stage40.demoted "1") ∧
    (Stage40.process_sentence
        [⟨some "1", some "root", some "0", []⟩, ⟨some "2", some "root", some "0", []⟩])[0]? =
      ([⟨some "1", some "root", some "0", []⟩,
          ⟨some "2", some "root", some "0", []⟩] : List Stage40.Tok40)[0]? ∧
    (0 : Nat) = ((0, "1") : Nat × String).1 :=
  ⟨(C6_single_root_amended _).1 ((0, "1"), (1, "2")) (by decide),
   (C6_single_root_amended _).2.1 0 (by decide),
   (C6_single_root_amended
       [⟨some "1", some "root", some "0", []⟩, ⟨some "2", some "root", some "0", []⟩]).2.2
     0 ⟨some "1", some "root", some "0", []⟩ "1" (by decide) rfl rfl (by decide)
     (0, "1") [(1, "2")] (by decide)⟩


namespace Caval

theorem decChar_toNat {n : Nat} (h : n < 10) : (decChar n).toNat = 48 + n := by
  interval_cases n <;> decide

theorem decChar_isDigit {n : Nat} (h : n < 10) : (decChar n).isDigit = true := by
  interval_cases n <;> decide

theorem decChar_ne_dash {n : Nat} (h : n < 10) : decChar n ≠ '-' := by
  interval_cases n <;> decide

/-- The workhorse specification of the fueled decimal printer. -/
theorem decDigitsAux_spec : ∀ (f n : Nat), n < f →
    (∀ c ∈ decDigitsAux f n, c.isDigit = true ∧ c ≠ '-' ∧ c ≠ ':' ∧ c ≠ '_') ∧
    decDigitsAux f n ≠ [] ∧
    (∀ a : Nat, (decDigitsAux f n).foldl (fun a c => a * 10 + (c.toNat - 48)) a =
      a * 10 ^ (decDigitsAux f n).length + n)
  | 0, n, h => absurd h (by omega)
  | f+1, n, h => by
    rw [decDigitsAux]
    by_cases h10 : n < 10
    · rw [if_pos h10]
      refine ⟨?_, by simp, ?_⟩
      · intro c hc
        rw [List.mem_singleton] at hc
        subst hc
        refine ⟨decChar_isDigit h10, decChar_ne_dash h10, ?_, ?_⟩
        · interval_cases n <;> decide
        · interval_cases n <;> decide
      · intro a
        simp only [List.foldl, decChar_toNat h10, List.length_singleton, pow_one]
        omega
    · rw [if_neg h10]
      have hlt : n / 10 < f := by omega
      obtain ⟨hc, hne, hf⟩ := decDigitsAux_spec f (n / 10) hlt
      refine ⟨?_, by simp, ?_⟩
      · intro c hcm
        rw [List.mem_append] at hcm
        rcases hcm with hcm | hcm
        · exact hc c hcm
        · rw [List.mem_singleton] at hcm
          subst hcm
          have : n % 10 < 10 := Nat.mod_lt _ (by omega)
          refine ⟨decChar_isDigit this, decChar_ne_dash this, ?_, ?_⟩
          · have h2 := this; interval_cases h : n % 10 <;> simp_all <;> decide
          · have h2 := this; interval_cases h : n % 10 <;> simp_all <;> decide
      · intro a
        rw [List.foldl_append, hf a, List.length_append]
        have hm : n % 10 < 10 := Nat.mod_lt _ (by omega)
        simp [List.foldl, decChar_toNat hm]
        rw [Nat.pow_add]
        have : a * (10 ^ (decDigitsAux f (n / 10)).length * 10 ^ 1) + n =
            (a * 10 ^ (decDigitsAux f (n / 10)).length + n / 10) * 10 + n % 10 := by
          have := Nat.div_add_mod n 10
          ring_nf
          omega
        omega

theorem natOfStr_decStr (n : Nat) : natOfStr (decStr n) = n := by
  have h := (decDigitsAux_spec (n+1) n (by omega)).2.2 0
  unfold natOfStr decStr
  simpa using h

theorem decStr_injective : Function.Injective decStr := by
  intro a b h
  have := natOfStr_decStr a
  rw [h, natOfStr_decStr] at this
  omega

theorem decStr_ne_empty (n : Nat) : (decStr n).isEmpty = false := by
  have h := (decDigitsAux_spec (n+1) n (by omega)).2.1
  rw [Bool.eq_false_iff]
  intro he
  have h1 : decStr n = "" := (String.isEmpty_iff _).mp he
  exact h (congrArg String.data h1)

theorem decStr_toList (n : Nat) : (decStr n).toList = decDigitsAux (n+1) n := rfl

theorem decStr_not_hyphen (n : Nat) : (decStr n).toList.contains '-' = false := by
  have h := (decDigitsAux_spec (n+1) n (by omega)).1
  rw [decStr_toList]
  by_contra hc
  rw [Bool.not_eq_false, List.contains_eq_any_beq, List.any_eq_true] at hc
  obtain ⟨c, hcm, hbeq⟩ := hc
  rw [beq_iff_eq] at hbeq
  exact (h c hcm).2.1 hbeq.symm

theorem isDigits_decStr (n : Nat) : isDigits (decStr n) = true := by
  have h := (decDigitsAux_spec (n+1) n (by omega)).1
  unfold isDigits
  rw [decStr_ne_empty]
  simp only [Bool.not_false, Bool.true_and]
  rw [List.all_eq_true]
  intro c hc
  exact (h c (by rw [decStr_toList] at hc; exact hc)).1

theorem decStr_ne_underscore (n : Nat) : decStr n ≠ "_" := by
  intro h
  have hp := (decDigitsAux_spec (n+1) n (by omega)).1
  have : '_' ∈ (decStr n).toList := by rw [h]; decide
  rw [decStr_toList] at this
  exact (hp _ this).2.2.2 rfl

end Caval

namespace Caval

theorem lookupStr_append_of_none : ∀ (m1 m2 : List (String × String)) (s : String),
    lookupStr m1 s = none → lookupStr (m1 ++ m2) s = lookupStr m2 s
  | [], m2, s, _ => rfl
  | (k, v) :: m1, m2, s, h => by
    rw [lookupStr] at h
    by_cases hk : k = s
    · rw [if_pos hk] at h; cases h
    · rw [List.cons_append, lookupStr, if_neg hk]
      rw [if_neg hk] at h
      exact lookupStr_append_of_none m1 m2 s h

theorem lookupStr_append_of_some : ∀ (m1 m2 : List (String × String)) (s v : String),
    lookupStr m1 s = some v → lookupStr (m1 ++ m2) s = some v
  | [], _, _, _, h => by cases h
  | (k, w) :: m1, m2, s, v, h => by
    rw [lookupStr] at h
    by_cases hk : k = s
    · rw [if_pos hk] at h
      rw [List.cons_append, lookupStr, if_pos hk]
      exact h
    · rw [if_neg hk] at h
      rw [List.cons_append, lookupStr, if_neg hk]
      exact lookupStr_append_of_some m1 m2 s v h

theorem lookupStr_insertStr_ne : ∀ (m : List (String × String)) (k v s : String), k ≠ s →
    lookupStr (insertStr m k v) s = lookupStr m s
  | [], k, v, s, hne => by simp [insertStr, lookupStr, hne]
  | (k0, v0) :: m, k, v, s, hne => by
    by_cases hk : k0 = k
    · subst hk
      simp [insertStr, lookupStr, hne]
    · simp only [insertStr, if_neg hk, lookupStr]
      by_cases hs : k0 = s
      · simp [hs]
      · simp only [if_neg hs]
        exact lookupStr_insertStr_ne m k v s hne

end Caval

namespace Caval

theorem lookupStr_insertStr_self : ∀ (m : List (String × String)) (k v : String),
    lookupStr (insertStr m k v) k = some v
  | [], k, v => by simp [insertStr, lookupStr]
  | (k0, v0) :: m, k, v => by
    by_cases hk : k0 = k
    · simp [insertStr, hk, lookupStr]
    · simp only [insertStr, if_neg hk, lookupStr, if_neg hk]
      exact lookupStr_insertStr_self m k v

end Caval

namespace Stage42

open Caval

theorem tokAtomicId_eq_some {t : Tok} {s : String} :
    tokAtomicId t = some s ↔
      t.id = some s ∧ s.isEmpty = false ∧ is_hyphen_id s = false := by
  unfold tokAtomicId
  cases hid : t.id with
  | none => simp
  | some s0 =>
    dsimp only
    by_cases hc : (!s0.isEmpty && !is_hyphen_id s0) = true
    · rw [if_pos hc]
      obtain ⟨h1, h2⟩ := (Bool.and_eq_true _ _).mp hc
      rw [Bool.not_eq_true'] at h1 h2
      constructor
      · rintro h
        cases h
        exact ⟨rfl, h1, h2⟩
      · rintro ⟨h3, _, _⟩
        cases h3
        rfl
    · rw [if_neg hc]
      constructor
      · rintro h
        cases h
      · rintro ⟨h3, h4, h5⟩
        cases h3
        exact absurd (by rw [h4, h5]; rfl) hc

theorem tokAtomicId_of_id_none {t : Tok} (h : t.id = none) : tokAtomicId t = none := by
  unfold tokAtomicId
  rw [h]


theorem atomicIds_cons_none (t : Tok) (ts : List Tok) (h : tokAtomicId t = none) :
    atomicIds (t :: ts) = atomicIds ts := by
  unfold atomicIds
  rw [List.filterMap_cons, h]

theorem atomicIds_cons_some (t : Tok) (ts : List Tok) (s : String)
    (h : tokAtomicId t = some s) : atomicIds (t :: ts) = s :: atomicIds ts := by
  unfold atomicIds
  rw [List.filterMap_cons, h]

theorem mem_atomicIds {ts : List Tok} {s : String} (h : s ∈ atomicIds ts) :
    s.isEmpty = false ∧ is_hyphen_id s = false := by
  unfold atomicIds at h
  rw [List.mem_filterMap] at h
  obtain ⟨t, _, ht⟩ := h
  have h2 := tokAtomicId_eq_some.mp ht
  exact ⟨h2.2.1, h2.2.2⟩

theorem assignSeq_eq : ∀ (ts : List Tok) (m : List (String × String)) (c : Nat),
    (∀ s ∈ atomicIds ts, lookupStr m s = none) → (atomicIds ts).Nodup →
    assignSeq ts m c = m ++ zipSeq (atomicIds ts) c
  | [], m, c, _, _ => by simp [assignSeq, atomicIds, zipSeq]
  | t :: ts, m, c, hnone, hnd => by
    cases hid : t.id with
    | none =>
      have ha : atomicIds (t :: ts) = atomicIds ts :=
        atomicIds_cons_none t ts (tokAtomicId_of_id_none hid)
      rw [ha] at hnone hnd
      rw [assignSeq, hid]
      dsimp only
      rw [ha]
      exact assignSeq_eq ts m c hnone hnd
    | some s =>
      by_cases h1 : s.isEmpty
      · have ha : atomicIds (t :: ts) = atomicIds ts := by
          refine atomicIds_cons_none t ts ?_
          unfold tokAtomicId
          rw [hid]
          dsimp only
          rw [if_neg (by simp [h1])]
        rw [ha] at hnone hnd
        rw [assignSeq, hid]
        dsimp only
        rw [if_pos h1, ha]
        exact assignSeq_eq ts m c hnone hnd
      · by_cases h2 : is_hyphen_id s
        · have ha : atomicIds (t :: ts) = atomicIds ts := by
            refine atomicIds_cons_none t ts ?_
            unfold tokAtomicId
            rw [hid]
            dsimp only
            rw [if_neg (by simp [h2])]
          rw [ha] at hnone hnd
          rw [assignSeq, hid]
          dsimp only
          rw [if_neg h1, if_neg (by simp [h2]), ha]
          exact assignSeq_eq ts m c hnone hnd
        · have ha : atomicIds (t :: ts) = s :: atomicIds ts := by
            refine atomicIds_cons_some t ts s ?_
            exact tokAtomicId_eq_some.mpr ⟨hid, by simp [h1], by simp [h2]⟩
          rw [ha] at hnone hnd
          have hs0 : lookupStr m s = none := hnone s (List.mem_cons_self _ _)
          rw [List.nodup_cons] at hnd
          rw [assignSeq, hid]
          dsimp only
          rw [if_neg h1, if_pos (by simp [h2, hs0])]
          rw [assignSeq_eq ts (m ++ [(s, decStr c)]) (c + 1) ?_ hnd.2]
          · rw [ha, zipSeq, List.append_assoc]
            rfl
          · intro s2 hs2
            rw [lookupStr_append_of_none m _ s2 (hnone s2 (List.mem_cons_of_mem _ hs2))]
            have hne : s ≠ s2 := fun e => hnd.1 (e ▸ hs2)
            simp [lookupStr, hne]

theorem map_lookup_zipSeq : ∀ (l : List String) (c : Nat), l.Nodup →
    l.map (fun s => (lookupStr (zipSeq l c) s).getD s) =
      (List.range l.length).map (fun k => decStr (c + k))
  | [], _, _ => rfl
  | s :: l, c, hnd => by
    rw [List.nodup_cons] at hnd
    rw [zipSeq, List.map_cons, List.length_cons, List.range_succ_eq_map, List.map_cons]
    congr 1
    · simp [lookupStr]
    · rw [List.map_map]
      have he : ∀ s2 ∈ l,
          (lookupStr ((s, decStr c) :: zipSeq l (c + 1)) s2).getD s2 =
            (lookupStr (zipSeq l (c + 1)) s2).getD s2 := by
        intro s2 hs2
        have hne : s ≠ s2 := fun e => hnd.1 (e ▸ hs2)
        simp [lookupStr, hne]
      rw [List.map_congr_left he, map_lookup_zipSeq l (c + 1) hnd.2]
      refine List.map_congr_left ?_
      intro k _
      simp only [Function.comp]
      congr 1
      omega

theorem is_hyphen_concat (a b : String) : is_hyphen_id (a ++ "-" ++ b) = true := by
  unfold is_hyphen_id
  have hd : (a ++ "-" ++ b).toList = a.toList ++ '-' :: b.toList := by
    show (a.data ++ "-".data ++ b.data) = _
    simp
  rw [hd, List.contains_eq_any_beq, List.any_eq_true]
  exact ⟨'-', by simp, by simp⟩

theorem addHyphen_lookup : ∀ (ts : List Tok) (m : List (String × String)) (s : String),
    is_hyphen_id s = false → lookupStr (addHyphen ts m) s = lookupStr m s
  | [], _, _, _ => rfl
  | t :: ts, m, s, hs => by
    rw [addHyphen]
    cases hid : t.id with
    | none => exact addHyphen_lookup ts m s hs
    | some s0 =>
      dsimp only
      by_cases hc : (s0.isEmpty || !is_hyphen_id s0) = true
      · rw [if_pos hc]
        exact addHyphen_lookup ts m s hs
      · rw [if_neg hc]
        have hhyph : is_hyphen_id s0 = true := by
          cases hb : is_hyphen_id s0 with
          | true => rfl
          | false => exact absurd (by rw [hb]; simp) hc
        cases hla : lookupStr m (splitDash1 s0).1 with
        | none =>
          dsimp only
          exact addHyphen_lookup ts m s hs
        | some va =>
          cases hlb : lookupStr m (splitDash1 s0).2 with
          | none =>
            dsimp only
            exact addHyphen_lookup ts m s hs
          | some vb =>
            dsimp only
            rw [addHyphen_lookup ts _ s hs, lookupStr_insertStr_ne]
            intro he
            rw [he] at hhyph
            rw [hs] at hhyph
            simp at hhyph

theorem lookup_zipSeq_inv : ∀ (l : List String) (c : Nat) (s v : String),
    lookupStr (zipSeq l c) s = some v → s ∈ l ∧ ∃ k, v = decStr k
  | [], _, _, _, h => by cases h
  | s0 :: l, c, s, v, h => by
    rw [zipSeq, lookupStr] at h
    by_cases he : s0 = s
    · rw [if_pos he] at h
      cases h
      exact ⟨he ▸ List.mem_cons_self _ _, c, rfl⟩
    · rw [if_neg he] at h
      obtain ⟨hm, hk⟩ := lookup_zipSeq_inv l (c + 1) s v h
      exact ⟨List.mem_cons_of_mem _ hm, hk⟩

/-- `addHyphen` preserves "hyphen keys map to hyphen values". -/
theorem addHyphen_hyphen_val : ∀ (ts : List Tok) (m : List (String × String)),
    (∀ s v, is_hyphen_id s = true → lookupStr m s = some v → is_hyphen_id v = true) →
    ∀ s v, is_hyphen_id s = true → lookupStr (addHyphen ts m) s = some v →
      is_hyphen_id v = true
  | [], m, hm, s, v, hs, hl => hm s v hs hl
  | t :: ts, m, hm, s, v, hs, hl => by
    rw [addHyphen] at hl
    cases hid : t.id with
    | none =>
      rw [hid] at hl
      exact addHyphen_hyphen_val ts m hm s v hs hl
    | some s0 =>
      rw [hid] at hl
      dsimp only at hl
      by_cases hc : (s0.isEmpty || !is_hyphen_id s0) = true
      · rw [if_pos hc] at hl
        exact addHyphen_hyphen_val ts m hm s v hs hl
      · rw [if_neg hc] at hl
        cases hla : lookupStr m (splitDash1 s0).1 with
        | none =>
          rw [hla] at hl
          dsimp only at hl
          exact addHyphen_hyphen_val ts m hm s v hs hl
        | some va =>
          rw [hla] at hl
          cases hlb : lookupStr m (splitDash1 s0).2 with
          | none =>
            rw [hlb] at hl
            dsimp only at hl
            exact addHyphen_hyphen_val ts m hm s v hs hl
          | some vb =>
            rw [hlb] at hl
            dsimp only at hl
            refine addHyphen_hyphen_val ts _ ?_ s v hs hl
            intro s2 v2 hs2 hl2
            by_cases he : s0 = s2
            · rw [← he, lookupStr_insertStr_self] at hl2
              cases hl2
              exact is_hyphen_concat va vb
            · rw [lookupStr_insertStr_ne m s0 _ s2 he] at hl2
              exact hm s2 v2 hs2 hl2

/-- Under the C1 hypotheses, the finished mapping sends atomic keys to
non-empty non-hyphen (decimal) values. -/
theorem build_atomic_val (ts : List Tok) (hnd : (atomicIds ts).Nodup) :
    ∀ s v, is_hyphen_id s = false →
      lookupStr (build_id_mapping ts) s = some v →
      v.isEmpty = false ∧ is_hyphen_id v = false := by
  intro s v hs hl
  unfold build_id_mapping at hl
  rw [addHyphen_lookup ts _ s hs] at hl
  rw [assignSeq_eq ts [] 1 (fun _ _ => rfl) hnd] at hl
  rw [List.nil_append] at hl
  obtain ⟨_, k, hk⟩ := lookup_zipSeq_inv _ 1 s v hl
  subst hk
  refine ⟨Caval.decStr_ne_empty k, ?_⟩
  unfold is_hyphen_id
  exact Caval.decStr_not_hyphen k

/-- Under the C1 hypotheses, the finished mapping has no hyphen-valued
entry for hyphen-free keys and is empty on hyphen keys' complement... -/
theorem build_hyphen_val (ts : List Tok) (hnd : (atomicIds ts).Nodup) :
    ∀ s v, is_hyphen_id s = true →
      lookupStr (build_id_mapping ts) s = some v → is_hyphen_id v = true := by
  refine addHyphen_hyphen_val ts _ ?_
  intro s v hs hl
  rw [assignSeq_eq ts [] 1 (fun _ _ => rfl) hnd, List.nil_append] at hl
  obtain ⟨hm, _⟩ := lookup_zipSeq_inv _ 1 s v hl
  have := mem_atomicIds hm
  rw [this.2] at hs
  cases hs

theorem rewriteTok_id (m : List (String × String)) (t : Tok) :
    (rewriteTok m t).id = some ((lookupStr m (t.id.getD "")).getD (t.id.getD "")) := rfl

theorem atomicIds_map_rewrite (m : List (String × String))
    (hhyp : ∀ s v, is_hyphen_id s = true → lookupStr m s = some v → is_hyphen_id v = true)
    (hatom : ∀ s v, is_hyphen_id s = false → lookupStr m s = some v →
      v.isEmpty = false ∧ is_hyphen_id v = false) :
    ∀ ts : List Tok, (∀ t ∈ ts, truthy t.id = true) →
      atomicIds (ts.map (rewriteTok m)) =
        (atomicIds ts).map (fun s => (lookupStr m s).getD s)
  | [], _ => rfl
  | t :: ts, htr => by
    have ht : truthy t.id = true := htr t (List.mem_cons_self _ _)
    have hrest := fun t2 h2 => htr t2 (List.mem_cons_of_mem _ h2)
    rw [List.map_cons]
    cases hid : t.id with
    | none => rw [hid] at ht; cases ht
    | some s =>
      rw [hid] at ht
      have hse : s.isEmpty = false := by
        unfold truthy at ht
        simpa using ht
      have hrid : (rewriteTok m t).id = some ((lookupStr m s).getD s) := by
        rw [rewriteTok_id, hid]
        rfl
      by_cases hh : is_hyphen_id s
      · have h1 : tokAtomicId t = none := by
          unfold tokAtomicId
          rw [hid]
          dsimp only
          rw [if_neg (by simp [hh])]
        have h2 : tokAtomicId (rewriteTok m t) = none := by
          unfold tokAtomicId
          rw [hrid]
          dsimp only
          cases hl : lookupStr m s with
          | none =>
            dsimp only [Option.getD]
            rw [if_neg (by simp [hh])]
          | some v =>
            dsimp only [Option.getD]
            rw [if_neg (by simp [hhyp s v hh hl])]
        rw [atomicIds_cons_none _ _ h2, atomicIds_cons_none _ _ h1]
        exact atomicIds_map_rewrite m hhyp hatom ts hrest
      · have hh2 : is_hyphen_id s = false := by simpa using hh
        have h1 : tokAtomicId t = some s := tokAtomicId_eq_some.mpr ⟨hid, hse, hh2⟩
        have hval : ((lookupStr m s).getD s).isEmpty = false ∧
            is_hyphen_id ((lookupStr m s).getD s) = false := by
          cases hl : lookupStr m s with
          | none => exact ⟨hse, hh2⟩
          | some v =>
            have := hatom s v hh2 hl
            simpa using this
        have h2 : tokAtomicId (rewriteTok m t) = some ((lookupStr m s).getD s) :=
          tokAtomicId_eq_some.mpr ⟨hrid, hval.1, hval.2⟩
        rw [atomicIds_cons_some _ _ _ h2, atomicIds_cons_some _ _ _ h1, List.map_cons]
        rw [atomicIds_map_rewrite m hhyp hatom ts hrest]

end Stage42

/-- C1 (amended): when the atomic tokens carry pairwise distinct truthy
ids, renumbering assigns them exactly the decimal ids `1..N` in order of
appearance; and in general two tokens with equal old ids always receive
equal new ids (so reused old ids collapse instead of staying unique). -/
theorem C1_renumber_ids_amended :
    (∀ ts : List Stage42.Tok, (Stage42.atomicIds ts).Nodup →
      (∀ t ∈ ts, Stage42.truthy t.id = true) →
      Stage42.atomicIds (Stage42.renumberTokens ts) =
        (List.range (Stage42.atomicIds ts).length).map (fun i => Caval.decStr (i + 1))) ∧
    (∀ (ts : List Stage42.Tok) (i j : Nat) (ti tj : Stage42.Tok),
      ts[i]? = some ti → ts[j]? = some tj → ti.id = tj.id →
      ((Stage42.renumberTokens ts)[i]?).map Stage42.Tok.id =
        ((Stage42.renumberTokens ts)[j]?).map Stage42.Tok.id) := by
  constructor
  · intro ts hnd htr
    unfold Stage42.renumberTokens
    rw [Stage42.atomicIds_map_rewrite (Stage42.build_id_mapping ts)
      (Stage42.build_hyphen_val ts hnd) (Stage42.build_atomic_val ts hnd) ts htr]
    have hcong : ∀ s ∈ Stage42.atomicIds ts,
        (Caval.lookupStr (Stage42.build_id_mapping ts) s).getD s =
          (Caval.lookupStr (Stage42.zipSeq (Stage42.atomicIds ts) 1) s).getD s := by
      intro s hs
      rw [Stage42.build_id_mapping,
        Stage42.addHyphen_lookup ts _ s (Stage42.mem_atomicIds hs).2,
        Stage42.assignSeq_eq ts [] 1 (fun _ _ => rfl) hnd, List.nil_append]
    rw [List.map_congr_left hcong, Stage42.map_lookup_zipSeq _ 1 hnd]
    refine List.map_congr_left ?_
    intro k _
    congr 1
    omega
  · intro ts i j ti tj hi hj he
    unfold Stage42.renumberTokens
    rw [List.getElem?_map, List.getElem?_map, hi, hj]
    simp only [Option.map_some']
    rw [Stage42.rewriteTok_id, Stage42.rewriteTok_id, he]

/-- Witness for C1: distinct ids `5`, `3` renumber to `1`, `2`; equal ids
renumber equally. -/
theorem C1_renumber_ids_witness :
    Stage42.atomicIds (Stage42.renumberTokens
        [⟨some "5", some "3", none, []⟩, ⟨some "3", some "0", none, []⟩]) =
      (List.range 2).map (fun i => Caval.decStr (i + 1)) ∧
    ((Stage42.renumberTokens
        [⟨some "7", some "0", none, []⟩, ⟨some "7", some "0", none, []⟩])[0]?).map
        Stage42.Tok.id =
      ((Stage42.renumberTokens
        [⟨some "7", some "0", none, []⟩, ⟨some "7", some "0", none, []⟩])[1]?).map
        Stage42.Tok.id :=
  ⟨C1_renumber_ids_amended.1 [⟨some "5", some "3", none, []⟩, ⟨some "3", some "0", none, []⟩]
      (by decide) (by decide),
   C1_renumber_ids_amended.2 [⟨some "7", some "0", none, []⟩, ⟨some "7", some "0", none, []⟩]
      0 1 ⟨some "7", some "0", none, []⟩ ⟨some "7", some "0", none, []⟩ rfl rfl rfl⟩


namespace Stage42

open Caval

theorem dropWhile_char (ch : Char) : ∀ (l : List Char), l.contains ch = true →
    ∃ t, l.dropWhile (fun c => !(c == ch)) = ch :: t
  | [], h => by cases h
  | c :: cs, h => by
    by_cases hc : c = ch
    · subst hc
      exact ⟨cs, by simp [List.dropWhile]⟩
    · have h2 : cs.contains ch = true := by
        rw [List.contains_eq_any_beq, List.any_cons] at h
        rcases (Bool.or_eq_true _ _).mp h with h3 | h3
        · exact absurd (beq_iff_eq.mp h3).symm hc
        · rw [List.contains_eq_any_beq]
          exact h3
      obtain ⟨t, ht⟩ := dropWhile_char ch cs h2
      exact ⟨t, by simp [List.dropWhile, ht, beq_eq_false_iff_ne.mpr hc]⟩

/-- Splitting at the first occurrence and re-concatenating restores the
string (dash version). -/
theorem splitDash1_recompose (s : String) (h : s.toList.contains '-' = true) :
    (splitDash1 s).1 ++ "-" ++ (splitDash1 s).2 = s := by
  unfold splitDash1
  obtain ⟨t, ht⟩ := dropWhile_char '-' s.toList h
  have hcat : (String.mk (s.toList.takeWhile (fun c => !(c == '-'))) ++ "-" ++
      String.mk (('-' :: t).drop 1)) =
      String.mk (s.toList.takeWhile (fun c => !(c == '-')) ++ '-' :: t) := by
    show String.mk _ = _
    simp
  rw [ht, hcat, ← ht]
  rw [List.takeWhile_append_dropWhile]
  rfl

/-- Splitting at the first occurrence and re-concatenating restores the
string (colon version). -/
theorem splitColon1_recompose (s : String) (h : s.toList.contains ':' = true) :
    (splitColon1 s).1 ++ ":" ++ (splitColon1 s).2 = s := by
  unfold splitColon1
  obtain ⟨t, ht⟩ := dropWhile_char ':' s.toList h
  have hcat : (String.mk (s.toList.takeWhile (fun c => !(c == ':'))) ++ ":" ++
      String.mk ((':' :: t).drop 1)) =
      String.mk (s.toList.takeWhile (fun c => !(c == ':')) ++ ':' :: t) := by
    show String.mk _ = _
    simp
  rw [ht, hcat, ← ht]
  rw [List.takeWhile_append_dropWhile]
  rfl

/-- Under an identity-valued mapping, `map_rel_attr` is the identity. -/
theorem map_rel_attr_id (m : List (String × String))
    (hid : ∀ s v, Caval.lookupStr m s = some v → v = s) (r : String) :
    map_rel_attr r m = r := by
  unfold map_rel_attr
  by_cases hc : r.toList.contains ':' = true
  · rw [if_neg (by rw [hc]; decide)]
    dsimp only
    cases hl : Caval.lookupStr m (splitColon1 r).1 with
    | none => rfl
    | some v =>
      rw [hid _ _ hl]
      exact splitColon1_recompose r hc
  · have hc2 : r.toList.contains ':' = false := by simpa using hc
    rw [if_pos (by rw [hc2]; decide)]

theorem zipSeq_canonical_id : ∀ (n c : Nat) (l : List String),
    l = (List.range n).map (fun k => decStr (c + k)) →
    ∀ s v, lookupStr (zipSeq l c) s = some v → v = s := by
  intro n
  induction n with
  | zero =>
    intro c l hl s v h
    subst hl
    cases h
  | succ n ih =>
    intro c l hl s v h
    rw [List.range_succ_eq_map, List.map_cons, List.map_map] at hl
    subst hl
    rw [zipSeq, lookupStr] at h
    by_cases he : decStr (c + 0) = s
    · rw [if_pos he] at h
      cases h
      rw [← he]
      congr 1
    · rw [if_neg he] at h
      refine ih (c + 1) _ ?_ s v h
      refine List.map_congr_left ?_
      intro k _
      simp only [Function.comp]
      congr 1
      omega

theorem addHyphen_id_val : ∀ (ts : List Tok) (m : List (String × String)),
    (∀ s v, lookupStr m s = some v → v = s) →
    ∀ s v, lookupStr (addHyphen ts m) s = some v → v = s
  | [], m, hm, s, v, hl => hm s v hl
  | t :: ts, m, hm, s, v, hl => by
    rw [addHyphen] at hl
    cases hid : t.id with
    | none =>
      rw [hid] at hl
      exact addHyphen_id_val ts m hm s v hl
    | some s0 =>
      rw [hid] at hl
      dsimp only at hl
      by_cases hc : (s0.isEmpty || !is_hyphen_id s0) = true
      · rw [if_pos hc] at hl
        exact addHyphen_id_val ts m hm s v hl
      · rw [if_neg hc] at hl
        have hhyph : is_hyphen_id s0 = true := by
          cases hb : is_hyphen_id s0 with
          | true => rfl
          | false => exact absurd (by rw [hb]; simp) hc
        cases hla : lookupStr m (splitDash1 s0).1 with
        | none =>
          rw [hla] at hl
          dsimp only at hl
          exact addHyphen_id_val ts m hm s v hl
        | some va =>
          rw [hla] at hl
          cases hlb : lookupStr m (splitDash1 s0).2 with
          | none =>
            rw [hlb] at hl
            dsimp only at hl
            exact addHyphen_id_val ts m hm s v hl
          | some vb =>
            rw [hlb] at hl
            dsimp only at hl
            refine addHyphen_id_val ts _ ?_ s v hl
            intro s2 v2 hl2
            by_cases he : s0 = s2
            · rw [← he, lookupStr_insertStr_self] at hl2
              cases hl2
              rw [hm _ _ hla, hm _ _ hlb, ← he]
              exact splitDash1_recompose s0 hhyph
            · rw [lookupStr_insertStr_ne m s0 _ s2 he] at hl2
              exact hm s2 v2 hl2

/-- The canonical-ids hypothesis of C7 gives distinct ids. -/
theorem canonical_nodup (ts : List Tok)
    (hcan : atomicIds ts =
      (List.range (atomicIds ts).length).map (fun k => decStr (k + 1))) :
    (atomicIds ts).Nodup := by
  rw [hcan]
  refine List.Nodup.map ?_ (List.nodup_range _)
  intro a b h
  have := decStr_injective h
  omega

theorem build_id_val (ts : List Tok)
    (hcan : atomicIds ts =
      (List.range (atomicIds ts).length).map (fun k => decStr (k + 1))) :
    ∀ s v, lookupStr (build_id_mapping ts) s = some v → v = s := by
  refine addHyphen_id_val ts _ ?_
  intro s v h
  rw [assignSeq_eq ts [] 1 (fun _ _ => rfl) (canonical_nodup ts hcan),
    List.nil_append] at h
  refine zipSeq_canonical_id (atomicIds ts).length 1 _ ?_ s v h
  rw [hcan]
  simp only [List.length_map, List.length_range]
  refine List.map_congr_left ?_
  intro k _
  congr 1
  omega

theorem mem_canonical (ts : List Tok)
    (hcan : atomicIds ts =
      (List.range (atomicIds ts).length).map (fun k => decStr (k + 1)))
    {s : String} (h : s ∈ atomicIds ts) : ∃ k, s = decStr (k + 1) := by
  rw [hcan] at h
  obtain ⟨k, _, hk⟩ := List.mem_map.mp h
  exact ⟨k, hk.symm⟩

theorem build_key_mem (ts : List Tok)
    (hcan : atomicIds ts =
      (List.range (atomicIds ts).length).map (fun k => decStr (k + 1))) :
    ∀ s v, is_hyphen_id s = false → lookupStr (build_id_mapping ts) s = some v →
      s ∈ atomicIds ts := by
  intro s v hh h
  unfold build_id_mapping at h
  rw [addHyphen_lookup ts _ s hh,
    assignSeq_eq ts [] 1 (fun _ _ => rfl) (canonical_nodup ts hcan),
    List.nil_append] at h
  exact (lookup_zipSeq_inv _ 1 s v h).1

theorem build_zero_none (ts : List Tok)
    (hcan : atomicIds ts =
      (List.range (atomicIds ts).length).map (fun k => decStr (k + 1))) :
    lookupStr (build_id_mapping ts) "0" = none := by
  cases h : lookupStr (build_id_mapping ts) "0" with
  | none => rfl
  | some v =>
    exfalso
    have hmem := build_key_mem ts hcan "0" v (by decide) h
    obtain ⟨k, hk⟩ := mem_canonical ts hcan hmem
    have h1 : natOfStr "0" = natOfStr (decStr (k + 1)) := by rw [← hk]
    rw [natOfStr_decStr] at h1
    have : natOfStr "0" = 0 := by decide
    omega

theorem map_head_id_idem (m : List (String × String))
    (hidv : ∀ s v, lookupStr m s = some v → v = s)
    (h0 : lookupStr m "0" = none)
    (ho : Option String) (b : Bool) :
    map_head_id (some (map_head_id ho m b)) m b = map_head_id ho m b := by
  have hdef : map_head_id (some (if b then "_" else "0")) m b = (if b then "_" else "0") := by
    cases b
    · show map_head_id (some "0") m false = "0"
      unfold map_head_id
      dsimp only
      rw [if_neg (by decide), h0]
    · show map_head_id (some "_") m true = "_"
      unfold map_head_id
      dsimp only
      rw [if_pos (by decide)]
      decide
  cases ho with
  | none =>
    show map_head_id (some (if b then "_" else "0")) m b = _
    rw [hdef]
    rfl
  | some h =>
    by_cases hd : (h.isEmpty || h = "_") = true
    · have e1 : map_head_id (some h) m b = (if b then "_" else "0") := by
        unfold map_head_id
        dsimp only
        rw [if_pos (by simpa using hd)]
      rw [e1, hdef]
    · have e0 : map_head_id (some h) m b =
          (match lookupStr m h with | some v => v | none => h) := by
        unfold map_head_id
        dsimp only
        rw [if_neg (by simpa using hd)]
      cases hl : lookupStr m h with
      | none =>
        rw [e0, hl]
        dsimp only
        rw [e0, hl]
      | some w =>
        have hw : w = h := hidv h w hl
        rw [e0, hl]
        dsimp only
        rw [hw]
        rw [e0, hl, hw]

theorem assignSeq_congr : ∀ (ts ts' : List Tok), ts.map Tok.id = ts'.map Tok.id →
    ∀ (m : List (String × String)) (c : Nat), assignSeq ts m c = assignSeq ts' m c
  | [], [], _, _, _ => rfl
  | [], _ :: _, h, _, _ => by cases h
  | _ :: _, [], h, _, _ => by cases h
  | t :: ts, t' :: ts', h, m, c => by
    rw [List.map_cons, List.map_cons] at h
    injection h with h1 h2
    rw [assignSeq, assignSeq, h1]
    cases t'.id with
    | none => exact assignSeq_congr ts ts' h2 m c
    | some s =>
      dsimp only
      by_cases h3 : s.isEmpty
      · rw [if_pos h3, if_pos h3]
        exact assignSeq_congr ts ts' h2 m c
      · rw [if_neg h3, if_neg h3]
        by_cases h4 : (!is_hyphen_id s && (lookupStr m s).isNone) = true
        · rw [if_pos h4, if_pos h4]
          exact assignSeq_congr ts ts' h2 _ _
        · rw [if_neg h4, if_neg h4]
          exact assignSeq_congr ts ts' h2 m c

theorem addHyphen_congr : ∀ (ts ts' : List Tok), ts.map Tok.id = ts'.map Tok.id →
    ∀ (m : List (String × String)), addHyphen ts m = addHyphen ts' m
  | [], [], _, _ => rfl
  | [], _ :: _, h, _ => by cases h
  | _ :: _, [], h, _ => by cases h
  | t :: ts, t' :: ts', h, m => by
    rw [List.map_cons, List.map_cons] at h
    injection h with h1 h2
    rw [addHyphen, addHyphen, h1]
    cases t'.id with
    | none => exact addHyphen_congr ts ts' h2 m
    | some s =>
      dsimp only
      by_cases h3 : (s.isEmpty || !is_hyphen_id s) = true
      · rw [if_pos h3, if_pos h3]
        exact addHyphen_congr ts ts' h2 m
      · rw [if_neg h3, if_neg h3]
        cases lookupStr m (splitDash1 s).1 <;> cases lookupStr m (splitDash1 s).2 <;>
          dsimp only <;> exact addHyphen_congr ts ts' h2 _

theorem build_congr (ts ts' : List Tok) (h : ts.map Tok.id = ts'.map Tok.id) :
    build_id_mapping ts = build_id_mapping ts' := by
  unfold build_id_mapping
  rw [assignSeq_congr ts ts' h [] 1, addHyphen_congr ts ts' h]

theorem renumber_ids_preserved (ts : List Tok)
    (htr : ∀ t ∈ ts, truthy t.id = true)
    (hcan : atomicIds ts =
      (List.range (atomicIds ts).length).map (fun k => decStr (k + 1))) :
    (renumberTokens ts).map Tok.id = ts.map Tok.id := by
  unfold renumberTokens
  rw [List.map_map]
  refine List.map_congr_left ?_
  intro t ht
  simp only [Function.comp]
  have htruthy := htr t ht
  rw [rewriteTok_id]
  cases hid : t.id with
  | none => rw [hid] at htruthy; cases htruthy
  | some s =>
    show some ((lookupStr (build_id_mapping ts) s).getD s) = some s
    cases hl : lookupStr (build_id_mapping ts) s with
    | none => rfl
    | some v =>
      dsimp only [Option.getD]
      rw [build_id_val ts hcan s v hl]

theorem rewriteTok_idem (m : List (String × String))
    (hidv : ∀ s v, lookupStr m s = some v → v = s)
    (h0 : lookupStr m "0" = none)
    (t : Tok) (s : String) (hid : t.id = some s) :
    rewriteTok m (rewriteTok m t) = rewriteTok m t := by
  have hu : (lookupStr m s).getD s = s := by
    cases hl : lookupStr m s with
    | none => rfl
    | some v => exact hidv s v hl
  obtain ⟨tid, thead, trel, toth⟩ := t
  dsimp only at hid
  subst hid
  cases trel with
  | none =>
    show rewriteTok m (rewriteTok m ⟨some s, thead, none, toth⟩) = _
    simp only [rewriteTok, Option.getD_some, hu, map_head_id_idem m hidv h0]
  | some r =>
    show rewriteTok m (rewriteTok m ⟨some s, thead, some r, toth⟩) = _
    simp only [rewriteTok, Option.getD_some, hu, map_head_id_idem m hidv h0,
      map_rel_attr_id m hidv]

theorem renumber_idem_A (ts : List Tok)
    (htr : ∀ t ∈ ts, truthy t.id = true)
    (hcan : atomicIds ts =
      (List.range (atomicIds ts).length).map (fun k => decStr (k + 1))) :
    renumberTokens (renumberTokens ts) = renumberTokens ts := by
  have e1 : ∀ l : List Tok, renumberTokens l = l.map (rewriteTok (build_id_mapping l)) :=
    fun _ => rfl
  have hm2 : build_id_mapping (renumberTokens ts) = build_id_mapping ts :=
    build_congr _ _ (renumber_ids_preserved ts htr hcan)
  rw [e1 (renumberTokens ts), hm2, e1 ts, List.map_map]
  refine List.map_congr_left ?_
  intro t ht
  simp only [Function.comp]
  have htruthy := htr t ht
  cases hid : t.id with
  | none => rw [hid] at htruthy; cases htruthy
  | some s => exact rewriteTok_idem _ (build_id_val ts hcan) (build_zero_none ts hcan) t s hid

end Stage42

namespace Caval

theorem toList_append (a b : String) : (a ++ b).toList = a.toList ++ b.toList := rfl

theorem lookupNat_insertNat_self : ∀ (m : List (Nat × Nat)) (a b : Nat),
    lookupNat (insertNat m a b) a = some b
  | [], a, b => by simp [insertNat, lookupNat]
  | (k0, v0) :: m, a, b => by
    by_cases h : k0 = a
    · simp [insertNat, lookupNat, h]
    · simp only [insertNat, lookupNat, if_neg h]
      exact lookupNat_insertNat_self m a b

theorem lookupNat_insertNat_ne : ∀ (m : List (Nat × Nat)) (a b k : Nat), k ≠ a →
    lookupNat (insertNat m a b) k = lookupNat m k
  | [], a, b, k, hk => by
    simp only [insertNat, lookupNat]
    rw [if_neg (fun h => hk h.symm)]
  | (k0, v0) :: m, a, b, k, hk => by
    by_cases h : k0 = a
    · simp only [insertNat, if_pos h, lookupNat]
      rw [if_neg (fun he => hk (he.symm.trans h)), if_neg (fun he => hk (he.symm.trans h))]
    · simp only [insertNat, if_neg h, lookupNat]
      by_cases h2 : k0 = k
      · rw [if_pos h2, if_pos h2]
      · rw [if_neg h2, if_neg h2]
        exact lookupNat_insertNat_ne m a b k hk

theorem inv_insertNat_self (m : List (Nat × Nat)) (n : Nat)
    (hinv : ∀ k v, lookupNat m k = some v → v = k) :
    ∀ k v, lookupNat (insertNat m n n) k = some v → v = k := by
  intro k v h
  by_cases hk : k = n
  · subst hk
    rw [lookupNat_insertNat_self] at h
    injection h with h1
    exact h1.symm
  · rw [lookupNat_insertNat_ne m n n k hk] at h
    exact hinv k v h

end Caval

namespace Stage03

open Caval

theorem dashSplit_no_dash : ∀ l : List Char, l.contains '-' = false →
    dashSplit l = [l]
  | [], _ => rfl
  | c :: cs, h => by
    have hc : (c == '-') = false := by
      simp only [List.contains_cons, Bool.or_eq_false_iff] at h
      have := h.1
      simpa [BEq.comm] using this
    have hcs : cs.contains '-' = false := by
      simp only [List.contains_cons, Bool.or_eq_false_iff] at h
      exact h.2
    simp only [dashSplit]
    rw [if_neg (by rw [hc]; decide), dashSplit_no_dash cs hcs]

theorem dashSplit_dash_append : ∀ (la lb : List Char), la.contains '-' = false →
    dashSplit (la ++ '-' :: lb) = la :: dashSplit lb
  | [], lb, _ => by
    rw [List.nil_append]
    simp only [dashSplit]
    rw [if_pos (by decide)]
  | c :: la, lb, h => by
    have hc : (c == '-') = false := by
      simp only [List.contains_cons, Bool.or_eq_false_iff] at h
      have := h.1
      simpa [BEq.comm] using this
    have hla : la.contains '-' = false := by
      simp only [List.contains_cons, Bool.or_eq_false_iff] at h
      exact h.2
    rw [List.cons_append]
    simp only [dashSplit]
    rw [if_neg (by rw [hc]; decide), dashSplit_dash_append la lb hla]

theorem contains_dash_range (a b : Nat) :
    ((decStr a ++ "-" ++ decStr b).toList).contains '-' = true := by
  rw [toList_append, toList_append]
  simp [List.contains_eq_any_beq]


theorem numericMwtParts_decStr (n : Nat) : numericMwtParts (decStr n) = none := by
  unfold numericMwtParts
  rw [decStr_not_hyphen]
  rfl

theorem numericMwtParts_range (a b : Nat) :
    numericMwtParts (decStr a ++ "-" ++ decStr b) = some (a, b) := by
  have hla := decStr_not_hyphen a
  have hlb := decStr_not_hyphen b
  have hspa := decDigitsAux_spec (a + 1) a (by omega)
  have hspb := decDigitsAux_spec (b + 1) b (by omega)
  have htl : (decStr a ++ "-" ++ decStr b).toList
      = (decStr a).toList ++ '-' :: (decStr b).toList := by
    rw [toList_append, toList_append, List.append_assoc]
    rfl
  have hcon : ((decStr a).toList ++ '-' :: (decStr b).toList).contains '-' = true := by
    simp [List.contains_eq_any_beq]
  have hfa : (decStr a).toList.filter (fun c => !(c == '-')) = (decStr a).toList := by
    refine List.filter_eq_self.mpr ?_
    intro c hc
    rw [decStr_toList] at hc
    have := (hspa.1 c hc).2.1
    simpa using this
  have hfb : (decStr b).toList.filter (fun c => !(c == '-')) = (decStr b).toList := by
    refine List.filter_eq_self.mpr ?_
    intro c hc
    rw [decStr_toList] at hc
    have := (hspb.1 c hc).2.1
    simpa using this
  have hfil : ((decStr a).toList ++ '-' :: (decStr b).toList).filter (fun c => !(c == '-'))
      = (decStr a).toList ++ (decStr b).toList := by
    rw [List.filter_append, List.filter_cons]
    simp only [hfa, hfb]
    rfl
  have hne : (decStr a).toList ≠ [] := by rw [decStr_toList]; exact hspa.2.1
  have hie : (String.mk ((decStr a).toList ++ (decStr b).toList)).isEmpty = false := by
    rw [Bool.eq_false_iff]
    intro h
    have h2 := (String.isEmpty_iff _).mp h
    have h3 := congrArg String.data h2
    simp only at h3
    rcases List.append_eq_nil.mp h3 with ⟨h4, _⟩
    exact hne h4
  have hdig : isDigits (String.mk ((decStr a).toList ++ (decStr b).toList)) = true := by
    unfold isDigits
    rw [hie]
    simp only [Bool.not_false, Bool.true_and]
    show ((decStr a).toList ++ (decStr b).toList).all Char.isDigit = true
    rw [List.all_append, Bool.and_eq_true]
    refine ⟨?_, ?_⟩
    · refine List.all_eq_true.mpr ?_
      intro c hc
      rw [decStr_toList] at hc
      exact (hspa.1 c hc).1
    · refine List.all_eq_true.mpr ?_
      intro c hc
      rw [decStr_toList] at hc
      exact (hspb.1 c hc).1
  unfold numericMwtParts
  rw [htl, hcon]
  rw [if_neg (by decide)]
  rw [hfil, hdig]
  rw [if_neg (by decide)]
  rw [dashSplit_dash_append _ _ hla, dashSplit_no_dash _ hlb]
  show some (natOfStr (decStr a), natOfStr (decStr b)) = some (a, b)
  rw [natOfStr_decStr, natOfStr_decStr]


theorem set_self_of_getElem? : ∀ (l : List Token) (n : Nat) (a : Token),
    l[n]? = some a → l.set n a = l
  | [], n, a, h => by rw [List.getElem?_nil] at h; cases h
  | x :: l, 0, a, h => by
    rw [List.getElem?_cons_zero] at h
    injection h with h1
    rw [List.set_cons_zero, h1]
  | x :: l, n + 1, a, h => by
    rw [List.getElem?_cons_succ] at h
    rw [List.set_cons_succ, set_self_of_getElem? l n a h]

theorem foldl_fix {α β : Type} (f : α → β → α) (l : α) :
    ∀ xs : List β, (∀ x ∈ xs, f l x = l) → xs.foldl f l = l
  | [], _ => rfl
  | x :: xs, h => by
    rw [List.foldl_cons, h x (List.mem_cons_self x xs)]
    exact foldl_fix f l xs fun y hy => h y (List.mem_cons_of_mem x hy)

theorem norm03_pointwise {n : Nat} {ts : List Token} (hn : Norm03 n ts) :
    ∀ tk ∈ ts, tk.id.toList.contains '-' = true ∨ headNorm tk.head = true := by
  induction hn with
  | nil n => intro tk htk; cases htk
  | atom n tk ts hmwt hid hhead hrec ih =>
    intro x hx
    rcases List.mem_cons.mp hx with h1 | h2
    · subst h1; exact Or.inr hhead
    · exact ih x h2
  | mwtS n span tk subs ts hmwt hid hlen hsubs hrec ih =>
    intro x hx
    rcases List.mem_cons.mp hx with h1 | h2
    · subst h1
      refine Or.inl ?_
      rw [hid]
      exact contains_dash_range n (n + span - 1)
    · rcases List.mem_append.mp h2 with h3 | h4
      · rcases List.mem_iff_get.mp h3 with ⟨⟨j, hj⟩, hg⟩
        exact Or.inr (hg ▸ (hsubs j hj).2)
      · exact ih x h4
  | mwtN n b tk subs ts hmwt hid hnb hlen hsubs hrec ih =>
    intro x hx
    rcases List.mem_cons.mp hx with h1 | h2
    · subst h1
      refine Or.inl ?_
      rw [hid]
      exact contains_dash_range n b
    · rcases List.mem_append.mp h2 with h3 | h4
      · rcases List.mem_iff_get.mp h3 with ⟨⟨j, hj⟩, hg⟩
        exact Or.inr (hg ▸ (hsubs j hj).2)
      · exact ih x h4

theorem fixHeadAt_id (m : List (Nat × Nat)) (l : List Token)
    (hinv : ∀ k v, lookupNat m k = some v → v = k)
    (hptw : ∀ tk ∈ l, tk.id.toList.contains '-' = true ∨ headNorm tk.head = true)
    (n : Nat) : fixHeadAt m l n = l := by
  unfold fixHeadAt
  cases hg : l[n]? with
  | none => rfl
  | some tk =>
    dsimp only
    have htk : tk ∈ l := List.mem_iff_getElem?.mpr ⟨n, hg⟩
    by_cases hdash : tk.id.toList.contains '-' = true
    · rw [if_pos hdash]
    · rw [if_neg hdash]
      have hhn : headNorm tk.head = true := by
        rcases hptw tk htk with h | h
        · exact absurd h hdash
        · exact h
      cases hdig : isDigits tk.head with
      | true =>
        rw [if_pos rfl]
        have hcanon : decStr (natOfStr tk.head) = tk.head := by
          unfold headNorm at hhn
          rw [hdig] at hhn
          simpa using hhn
        cases hl : lookupNat m (natOfStr tk.head) with
        | none => rfl
        | some v =>
          dsimp only
          have hv : v = natOfStr tk.head := hinv _ v hl
          rw [hv, hcanon]
          have he : ({ tk with head := tk.head } : Token) = tk := rfl
          rw [he]
          exact set_self_of_getElem? l n tk hg
      | false =>
        rw [if_neg (by decide)]
        have hb : (tk.head = "BASE" || tk.head = "EXCL" || tk.head = "Q" : Bool) = false := by
          unfold headNorm at hhn
          rw [hdig] at hhn
          simpa using hhn
        rw [if_neg (by rw [hb]; decide)]

theorem fixHeads_id (m : List (Nat × Nat)) (l : List Token)
    (hinv : ∀ k v, lookupNat m k = some v → v = k)
    (hptw : ∀ tk ∈ l, tk.id.toList.contains '-' = true ∨ headNorm tk.head = true) :
    fixHeads m l = l :=
  foldl_fix (fixHeadAt m) l (List.range l.length)
    (fun n _ => fixHeadAt_id m l hinv hptw n)

theorem consumeSpan_norm : ∀ (subs : List Token) (n : Nat) (rest : List Token)
    (m : List (Nat × Nat)),
    (∀ (j : Nat) (h : j < subs.length), (subs.get ⟨j, h⟩).id = decStr (n + j)) →
    (∀ k v, lookupNat m k = some v → v = k) →
    ∃ m2, consumeSpan n subs.length (subs ++ rest) m = (subs, rest, m2) ∧
      (∀ k v, lookupNat m2 k = some v → v = k)
  | [], n, rest, m, _, hinv => ⟨m, rfl, hinv⟩
  | s :: subs, n, rest, m, hids, hinv => by
    have hid0 : s.id = decStr n := by
      have h0 := hids 0 (by simp)
      simpa using h0
    have hids2 : ∀ (j : Nat) (h : j < subs.length),
        (subs.get ⟨j, h⟩).id = decStr (n + 1 + j) := by
      intro j hj
      have hj2 := hids (j + 1) (by simpa using Nat.succ_lt_succ hj)
      rw [show n + (j + 1) = n + 1 + j by omega] at hj2
      simpa using hj2
    obtain ⟨m2, hc, hinv2⟩ := consumeSpan_norm subs (n + 1) rest (insertNat m n n)
      hids2 (inv_insertNat_self m n hinv)
    refine ⟨m2, ?_, hinv2⟩
    show consumeSpan n (subs.length + 1) (s :: (subs ++ rest)) m = (s :: subs, rest, m2)
    simp only [consumeSpan]
    rw [hid0, isDigits_decStr, if_pos rfl, natOfStr_decStr, hc]
    rw [← hid0]

theorem renGo_norm {n : Nat} {ts : List Token} (hn : Norm03 n ts) :
    ∀ (f : Nat) (m : List (Nat × Nat)), ts.length ≤ f →
    (∀ k v, lookupNat m k = some v → v = k) →
    ∃ m2, renGo f ts n m = (ts, m2) ∧ (∀ k v, lookupNat m2 k = some v → v = k) := by
  induction hn with
  | nil n =>
    intro f m _ hinv
    refine ⟨m, ?_, hinv⟩
    cases f <;> rfl
  | atom n tk ts hmwt hid hhead hrec ih =>
    intro f m hlen hinv
    cases f with
    | zero => simp at hlen
    | succ f =>
      have hlen2 : ts.length ≤ f := by
        simp only [List.length_cons] at hlen
        omega
      obtain ⟨m2, hgo, hinv2⟩ := ih f (insertNat m n n) hlen2 (inv_insertNat_self m n hinv)
      refine ⟨m2, ?_, hinv2⟩
      show renGo (f + 1) (tk :: ts) n m = (tk :: ts, m2)
      simp only [renGo]
      rw [hmwt]
      dsimp only
      rw [hid, numericMwtParts_decStr]
      dsimp only
      rw [isDigits_decStr, if_pos rfl, natOfStr_decStr, hgo]
      rw [← hid, ← hmwt]
  | mwtS n span tk subs ts hmwt hid hlen hsubs hrec ih =>
    intro f m hlenf hinv
    cases f with
    | zero => simp at hlenf
    | succ f =>
      have hlen2 : ts.length ≤ f := by
        simp only [List.length_cons, List.length_append] at hlenf
        omega
      obtain ⟨mc, hc, hinvc⟩ := consumeSpan_norm subs n ts m
        (fun j h => (hsubs j h).1) hinv
      rw [hlen] at hc
      obtain ⟨m2, hgo, hinv2⟩ := ih f mc hlen2 hinvc
      refine ⟨m2, ?_, hinv2⟩
      show renGo (f + 1) (tk :: (subs ++ ts)) n m = (tk :: (subs ++ ts), m2)
      simp only [renGo]
      rw [hmwt]
      dsimp only
      rw [hc]
      dsimp only
      rw [hgo, ← hid, ← hmwt]
      rfl
  | mwtN n b tk subs ts hmwt hid hnb hlen hsubs hrec ih =>
    intro f m hlenf hinv
    cases f with
    | zero => simp at hlenf
    | succ f =>
      have hlen2 : ts.length ≤ f := by
        simp only [List.length_cons, List.length_append] at hlenf
        omega
      obtain ⟨mc, hc, hinvc⟩ := consumeSpan_norm subs n ts m
        (fun j h => (hsubs j h).1) hinv
      rw [hlen] at hc
      obtain ⟨m2, hgo, hinv2⟩ := ih f mc hlen2 hinvc
      refine ⟨m2, ?_, hinv2⟩
      show renGo (f + 1) (tk :: (subs ++ ts)) n m = (tk :: (subs ++ ts), m2)
      simp only [renGo]
      rw [hmwt]
      dsimp only
      rw [hid, numericMwtParts_range]
      dsimp only
      rw [hc]
      dsimp only
      rw [hgo]
      rw [show n + (b - n + 1) - 1 = b from by omega]
      rw [← hid, ← hmwt]
      rfl

theorem renumber_norm (ts : List Token) (h : Norm03 1 ts) :
    renumber_preserving_mwts ts = ts := by
  obtain ⟨m2, hgo, hinv⟩ := renGo_norm h ts.length [] (Nat.le_refl _)
    (fun k v hkv => by simp [lookupNat] at hkv)
  unfold renumber_preserving_mwts
  rw [hgo]
  exact fixHeads_id m2 ts hinv (norm03_pointwise h)

end Stage03

/-- C7: the renumbering-and-head-remap pass is idempotent on normalized
input.  For stage 42 (`process_sentence` of
`42_renumber_ids_per_sentence.py`): when every token id is truthy and the
atomic ids already form the canonical decimal sequence `1..N`, running the
pass on its own output changes nothing.  For stage 03
(`renumber_preserving_mwts` of `03_fix_exclamations.py`): on a sentence in
normal form (`Norm03 1`: ids already sequential from 1 with correct
contiguous MWT ranges and heads stable under the head-fixing pass) the
pass is a fixed point, hence idempotent. -/
theorem C7_renumber_idempotent :
    (∀ ts : List Stage42.Tok,
      (∀ t ∈ ts, Stage42.truthy t.id = true) →
      Stage42.atomicIds ts =
        (List.range (Stage42.atomicIds ts).length).map (fun k => Caval.decStr (k + 1)) →
      Stage42.renumberTokens (Stage42.renumberTokens ts) = Stage42.renumberTokens ts) ∧
    (∀ ts : List Stage03.Token, Stage03.Norm03 1 ts →
      Stage03.renumber_preserving_mwts (Stage03.renumber_preserving_mwts ts) =
        Stage03.renumber_preserving_mwts ts) := by
  constructor
  · exact Stage42.renumber_idem_A
  · intro ts h
    rw [Stage03.renumber_norm ts h]
    exact Stage03.renumber_norm ts h

/-- Witness for C7 at concrete inputs: a two-token stage 42 sentence with
canonical ids `1`, `2`, and a one-token stage 03 sentence with id `1` and
head `0`. -/
theorem C7_renumber_idempotent_witness :
    Stage42.renumberTokens (Stage42.renumberTokens
        [⟨some "1", some "0", none, []⟩, ⟨some "2", some "1", none, []⟩]) =
      Stage42.renumberTokens
        [⟨some "1", some "0", none, []⟩, ⟨some "2", some "1", none, []⟩] ∧
    Stage03.renumber_preserving_mwts (Stage03.renumber_preserving_mwts
        [⟨"1", "ա", "ա", "NOUN", "_", "_", "0", "root", "_", "_", none⟩]) =
      Stage03.renumber_preserving_mwts
        [⟨"1", "ա", "ա", "NOUN", "_", "_", "0", "root", "_", "_", none⟩] :=
  ⟨C7_renumber_idempotent.1 _ (by decide) (by decide),
   C7_renumber_idempotent.2 _
     (Stage03.Norm03.atom 1 _ [] rfl rfl (by decide) (Stage03.Norm03.nil 2))⟩

namespace Stage00

open Caval

theorem quoteFmt_tail (b : Bool) (c : Char) (rest : List Char)
    (h : quoteFmt b (c :: rest) = true) : ∃ b2, quoteFmt b2 rest = true := by
  cases b with
  | false =>
    simp only [quoteFmt] at h
    by_cases hc : (c == '"') = true
    · rw [if_pos hc] at h
      exact ⟨true, h⟩
    · rw [if_neg hc] at h
      exact ⟨false, h⟩
  | true =>
    simp only [quoteFmt] at h
    by_cases hc : (c == '"') = true
    · rw [if_pos hc] at h
      cases rest with
      | nil => exact ⟨false, rfl⟩
      | cons d r2 =>
        simp only [Bool.and_eq_true] at h
        exact ⟨false, h.2⟩
    · rw [if_neg hc] at h
      exact ⟨true, h⟩

theorem quoteFmt_word_run : ∀ (ol : List Char), (∀ c ∈ ol, isWordChar c = true) →
    ∀ t : List Char, quoteFmt true (ol ++ '"' :: t) = true →
      t = [] ∨ ∃ t2, t = ' ' :: t2
  | [], _, t, h => by
    rw [List.nil_append] at h
    simp only [quoteFmt, if_pos (by decide : (('"' : Char) == '"') = true)] at h
    cases t with
    | nil => exact Or.inl rfl
    | cons d t2 =>
      simp only [Bool.and_eq_true] at h
      exact Or.inr ⟨t2, by rw [eq_of_beq h.1]⟩
  | c :: ol, hw, t, h => by
    rw [List.cons_append] at h
    have hcq : (c == '"') = false := by
      have h1 := hw c (List.mem_cons_self c ol)
      rw [beq_eq_false_iff_ne]
      intro he
      rw [he] at h1
      exact absurd h1 (by decide)
    simp only [quoteFmt, hcq] at h
    rw [if_neg (by decide)] at h
    exact quoteFmt_word_run ol (fun d hd => hw d (List.mem_cons_of_mem c hd)) t h

theorem quoteFmt_inside_block (ol : List Char) (hw : ∀ c ∈ ol, isWordChar c = true)
    (t : List Char) : quoteFmt true ('"' :: (ol ++ '"' :: t)) = false := by
  cases ol with
  | nil =>
    rw [List.nil_append]
    simp only [quoteFmt, if_pos (by decide : (('"' : Char) == '"') = true)]
    rw [show (('"' : Char) == ' ') = false from by decide]
    simp
  | cons ch ol2 =>
    rw [List.cons_append]
    simp only [quoteFmt, if_pos (by decide : (('"' : Char) == '"') = true)]
    have hch : (ch == ' ') = false := by
      have h1 := hw ch (List.mem_cons_self ch ol2)
      rw [beq_eq_false_iff_ne]
      intro he
      rw [he] at h1
      exact absurd h1 (by decide)
    rw [hch]
    simp

theorem boundaryMatchAt_fmt (old_id : String)
    (hold : ∀ c ∈ old_id.toList, isWordChar c = true)
    (b : Bool) (prev : Option Char) (s : List Char)
    (hq : quoteFmt b s = true) :
    boundaryMatchAt prev (("id=\"" ++ old_id ++ "\"").toList) s = false := by
  unfold boundaryMatchAt
  cases hp : (("id=\"" ++ old_id ++ "\"").toList).isPrefixOf s with
  | false => simp [hp]
  | true =>
    obtain ⟨t, ht⟩ := List.isPrefixOf_iff_prefix.mp hp
    have hpat : ("id=\"" ++ old_id ++ "\"").toList
        = 'i' :: 'd' :: '=' :: '"' :: (old_id.toList ++ ['"']) := by
      rw [toList_append, toList_append]
      rfl
    have hs : s = 'i' :: 'd' :: '=' :: '"' :: (old_id.toList ++ '"' :: t) := by
      rw [← ht, hpat]
      simp only [List.cons_append, List.append_assoc]
      rfl
    have hdrop : s.drop (("id=\"" ++ old_id ++ "\"").toList).length = t := by
      rw [← ht, List.drop_left]
    rw [hdrop]
    rw [hs] at hq
    cases b with
    | false =>
      have hstep : ∀ r : List Char,
          quoteFmt false ('i' :: 'd' :: '=' :: '"' :: r) = quoteFmt true r :=
        fun r => rfl
      rw [hstep] at hq
      rcases quoteFmt_word_run old_id.toList hold t hq with h0 | ⟨t2, h2⟩
      · subst h0
        simp
      · subst h2
        have hw : isWordChar ' ' = false := by decide
        dsimp only
        rw [hw]
        simp
    | true =>
      have hstep : ∀ r : List Char,
          quoteFmt true ('i' :: 'd' :: '=' :: r) = quoteFmt true r :=
        fun r => rfl
      rw [hstep] at hq
      rw [quoteFmt_inside_block old_id.toList hold t] at hq
      exact absurd hq (by decide)

theorem subIdOnce_fmt (old_id : String)
    (hold : ∀ c ∈ old_id.toList, isWordChar c = true) (rep : List Char) :
    ∀ (prev : Option Char) (b : Bool) (s : List Char), quoteFmt b s = true →
      subIdOnce (("id=\"" ++ old_id ++ "\"").toList) rep prev s = s
  | _, _, [], _ => rfl
  | prev, b, c :: rest, h => by
    simp only [subIdOnce]
    rw [boundaryMatchAt_fmt old_id hold b prev (c :: rest) h, if_neg (by decide)]
    obtain ⟨b2, h2⟩ := quoteFmt_tail b c rest h
    rw [subIdOnce_fmt old_id hold rep (some c) b2 rest h2]

theorem replace_id_suffix_fmt (line old_id new_suffix : String)
    (hline : quoteFmt false line.toList = true)
    (hold : ∀ c ∈ old_id.toList, isWordChar c = true) :
    replace_id_suffix line old_id new_suffix = line := by
  unfold replace_id_suffix
  rw [subIdOnce_fmt old_id hold _ none false line.toList hline]
  rfl

end Stage00

/-- C10 (code bug): the ibrew-z stage cannot perform the split the claim
describes.  The id-rewriting substitution of `replace_id_suffix` carries
a trailing word boundary placed right after the closing quote, so it can
only match when a word character follows the quote; on every line of the
stage's documented attribute format (each closing quote followed by a
space or the end of the line) the substitution never fires, so the
duplicated `z` line keeps its old id instead of receiving the promised
fresh id: the first conjunct returns the docstring's own example line
unchanged, the second states the general identity on the format, and the
third pins the embedded boundary semantics by exhibiting the one shape on
which the substitution does fire (a word character directly after the
quote).  Independently of the dead substitution, the module as shipped
does not parse (invalid string prefix in `set_attr`), so the stage stops
with SyntaxError before reading any input. -/
theorem C10_id_suffix_regex_dead :
    Stage00.replace_id_suffix
        "id=\"1\" head-id=\"4\" relation=\"obj\" lemma=\"ibrew z\" form=\"ibrew z\" part-of-speech=\"X-\""
        "1" "0" =
      "id=\"1\" head-id=\"4\" relation=\"obj\" lemma=\"ibrew z\" form=\"ibrew z\" part-of-speech=\"X-\"" ∧
    (∀ (line old_id new_suffix : String), Stage00.quoteFmt false line.toList = true →
      (∀ c ∈ old_id.toList, Stage00.isWordChar c = true) →
      Stage00.replace_id_suffix line old_id new_suffix = line) ∧
    Stage00.replace_id_suffix "id=\"1\"x" "1" "0" = "id=\"10\"x" :=
  ⟨by decide,
   fun line old_id new_suffix hline hold =>
     Stage00.replace_id_suffix_fmt line old_id new_suffix hline hold,
   by decide⟩

/-- Witness for C10 at a concrete input: a token line in the documented
format, left unchanged by the substitution. -/
theorem C10_id_suffix_regex_dead_witness :
    Stage00.quoteFmt false (String.toList "id=\"7\" relation=\"aux\"") = true ∧
    (∀ c ∈ String.toList "7", Stage00.isWordChar c = true) ∧
    Stage00.replace_id_suffix "id=\"7\" relation=\"aux\"" "7" "0" =
      "id=\"7\" relation=\"aux\"" :=
  ⟨by decide, by decide,
   C10_id_suffix_regex_dead.2.1 "id=\"7\" relation=\"aux\"" "7" "0" (by decide) (by decide)⟩
